import Mathlib

/-!
Shallow embedding of `src/python/dbcrust/django/query_collector.py`.

Strings are modelled as `List Char` internally (`String` at the API
boundary).  Python's `re.search` / `re.findall` / `re.sub` calls are
modelled by explicit left-to-right scans that try a (faithful model of
the) pattern at every position, exactly mirroring leftmost, greedy,
non-overlapping regex semantics for the concrete patterns used in the
source.  Python whitespace (`\s`, `str.split`, `str.strip`) is the set
space, tab, newline, carriage return, vertical tab, form feed.
-/

namespace DQC

/-- Python's whitespace set used by `str.strip`, `str.split` and `\s`. -/
def isPyWs (c : Char) : Bool :=
  c = ' ' || c = '\t' || c = '\n' || c = '\r' || c = '\x0b' || c = '\x0c'

/-- `str.strip()`: drop leading and trailing whitespace. -/
def pyStrip (l : List Char) : List Char :=
  ((l.dropWhile isPyWs).reverse.dropWhile isPyWs).reverse

/-- `str.upper()` (ASCII, as the source only feeds SQL text). -/
def pyUpper (l : List Char) : List Char := l.map Char.toUpper

/-- `str.lower()` (ASCII). -/
def pyLower (l : List Char) : List Char := l.map Char.toLower

/-- `str.strip(q)` for a single strip character `q`. -/
def stripChar (q : Char) (l : List Char) : List Char :=
  ((l.dropWhile (fun c => c = q)).reverse.dropWhile (fun c => c = q)).reverse

/-- The `startswith` cascade of `_extract_query_type`, on the already
trimmed and uppercased text. -/
def classifyChars (s : List Char) : String :=
  if "SELECT".data.isPrefixOf s then "SELECT"
  else if "INSERT".data.isPrefixOf s then "INSERT"
  else if "UPDATE".data.isPrefixOf s then "UPDATE"
  else if "DELETE".data.isPrefixOf s then "DELETE"
  else if "CREATE".data.isPrefixOf s then "CREATE"
  else if "DROP".data.isPrefixOf s then "DROP"
  else if "ALTER".data.isPrefixOf s then "ALTER"
  else "OTHER"

/-- `QueryCollector._extract_query_type`: trim, uppercase, then test
`startswith` against the seven keywords in source order. -/
def _extract_query_type (sql : String) : String :=
  classifyChars (pyUpper (pyStrip sql.data))

/-!
Model of the extraction regexes.  Each pattern used by
`_extract_table_names` has the form `KW1(\s+KW2)?\s+([^\s⋯]+)`:
literal keyword(s) separated by `\s+`, then a captured token which is a
maximal nonempty run of characters outside an excluded class.
`afterKws` consumes the keywords and the whitespace between them
(greedy `\s+` is complete here because every keyword starts with a
non-whitespace character).
-/

/-- Consume `kw₁ \s+ kw₂ \s+ ⋯ kwₙ` at the head of `l`; return the rest. -/
def afterKws : List (List Char) → List Char → Option (List Char)
  | [], l => some l
  | kw :: kws, l =>
    if kw.isPrefixOf l then
      match kws with
      | [] => some (l.drop kw.length)
      | _ :: _ =>
        match l.drop kw.length with
        | [] => none
        | c :: rest => if isPyWs c then afterKws kws (rest.dropWhile isPyWs) else none
    else none

/-- `\s+([^\s⋯]+)`: require a leading whitespace character, skip the
whitespace run, capture a maximal nonempty run of characters that are
neither whitespace nor in the excluded class `excl`.  Returns the
captured token and the suffix after it. -/
def tokenAfterWs (excl : Char → Bool) : List Char → Option (List Char × List Char)
  | [] => none
  | c :: rest =>
    if isPyWs c then
      let r2 := rest.dropWhile isPyWs
      let tok := r2.takeWhile (fun d => !(isPyWs d) && !(excl d))
      if tok.isEmpty then none else some (tok, r2.drop tok.length)
    else none

/-- Try the pattern `kws… \s+ token` at the head of `l`. -/
def matchAtP (kws : List (List Char)) (excl : Char → Bool) (l : List Char) :
    Option (List Char × List Char) :=
  match afterKws kws l with
  | none => none
  | some r => tokenAfterWs excl r

/-- `re.search(pattern, l)`: leftmost match, returning captured token and rest. -/
def searchP (kws : List (List Char)) (excl : Char → Bool) :
    List Char → Option (List Char × List Char)
  | [] => none
  | c :: t =>
    match matchAtP kws excl (c :: t) with
    | some x => some x
    | none => searchP kws excl t

/-- Fuel-driven scan loop of `re.findall`.  One unit of fuel is spent
per position; a successful match always consumes at least one
character, so fuel equal to the list length is exactly enough
(`findAllFuel_congr`). -/
def findAllFuel (kws : List (List Char)) (excl : Char → Bool) :
    Nat → List Char → List (List Char)
  | 0, _ => []
  | _ + 1, [] => []
  | fuel + 1, c :: t =>
    match matchAtP kws excl (c :: t) with
    | some (tok, rest) => tok :: findAllFuel kws excl fuel rest
    | none => findAllFuel kws excl fuel t

/-- `re.findall(pattern, l)`: all leftmost non-overlapping captured tokens. -/
def findAllP (kws : List (List Char)) (excl : Char → Bool) (l : List Char) :
    List (List Char) :=
  findAllFuel kws excl l.length l

/-- The `FROM\s+([^\s,]+)` branch of `_extract_table_names`. -/
def candFrom (u : List Char) : List String :=
  match searchP ["FROM".data] (fun c => c = ',') u with
  | none => []
  | some (tok, _) =>
    let t := stripChar '\'' (stripChar '"' tok)
    if t ≠ [] ∧ t.head? ≠ some '(' then [String.mk (pyLower t)] else []

/-- The `JOIN\s+([^\s]+)` branch (findall: every occurrence). -/
def candJoin (u : List Char) : List String :=
  (findAllP ["JOIN".data] (fun _ => false) u).filterMap (fun tok =>
    let t := stripChar '\'' (stripChar '"' tok)
    if t ≠ [] then some (String.mk (pyLower t)) else none)

/-- The `INSERT\s+INTO\s+([^\s(]+)` branch. -/
def candInsert (u : List Char) : List String :=
  match searchP ["INSERT".data, "INTO".data] (fun c => c = '(') u with
  | none => []
  | some (tok, _) =>
    let t := stripChar '\'' (stripChar '"' tok)
    if t ≠ [] then [String.mk (pyLower t)] else []

/-- The `UPDATE\s+([^\s]+)` branch. -/
def candUpdate (u : List Char) : List String :=
  match searchP ["UPDATE".data] (fun _ => false) u with
  | none => []
  | some (tok, _) =>
    let t := stripChar '\'' (stripChar '"' tok)
    if t ≠ [] then [String.mk (pyLower t)] else []

/-- The `DELETE\s+FROM\s+([^\s]+)` branch. -/
def candDelete (u : List Char) : List String :=
  match searchP ["DELETE".data, "FROM".data] (fun _ => false) u with
  | none => []
  | some (tok, _) =>
    let t := stripChar '\'' (stripChar '"' tok)
    if t ≠ [] then [String.mk (pyLower t)] else []

/-- The final dedup-preserving-order loop of `_extract_table_names`. -/
def dedupAux : List String → List String → List String
  | _, [] => []
  | seen, t :: ts => if t ∈ seen then dedupAux seen ts else t :: dedupAux (t :: seen) ts

/-- `QueryCollector._extract_table_names`. -/
def _extract_table_names (sql : String) : List String :=
  let u := pyUpper sql.data
  dedupAux [] (candFrom u ++ candJoin u ++ candInsert u ++ candUpdate u ++ candDelete u)

/-!
Model of `CapturedQuery.get_base_query`:
`" ".join(sql.split())` followed by the four `re.sub` calls
`IN\s*\([^)]+\)` → `IN (?)` (ignorecase), `=\s*%s` → `= ?`,
`=\s*\d+` → `= ?`, `=\s*'[^']+'` → `= ?`.
Each matcher `mᵢ` tries its pattern at the head of the list and, on
success, returns the suffix after the matched span; `subRepl` is the
leftmost non-overlapping scan-and-replace loop of `re.sub`.
-/

/-- Fuel-driven loop of `str.split()`. -/
def splitFuel : Nat → List Char → List (List Char)
  | 0, _ => []
  | fuel + 1, l =>
    match l.dropWhile isPyWs with
    | [] => []
    | c :: t =>
      (c :: t.takeWhile (fun d => !(isPyWs d))) :: splitFuel fuel (t.dropWhile (fun d => !(isPyWs d)))

/-- `str.split()` on whitespace runs, empties discarded. -/
def pySplitWords (l : List Char) : List (List Char) :=
  splitFuel l.length l

/-- `" ".join(words)`: concatenate with a single space between. -/
def joinWithSpace : List (List Char) → List Char
  | [] => []
  | [w] => w
  | w :: w2 :: ws => w ++ ' ' :: joinWithSpace (w2 :: ws)

/-- `" ".join(s.split())`. -/
def collapseWs (l : List Char) : List Char :=
  joinWithSpace (pySplitWords l)

def inRepl : List Char := "IN (?)".data

def eqRepl : List Char := "= ?".data

/-- Matcher for `IN\s*\([^)]+\)` with `re.IGNORECASE` at the head. -/
def m1 : List Char → Option (List Char)
  | a :: b :: r =>
    if (a = 'I' ∨ a = 'i') ∧ (b = 'N' ∨ b = 'n') then
      match r.dropWhile isPyWs with
      | '(' :: r3 =>
        if (r3.takeWhile (fun d => d ≠ ')')).isEmpty then none
        else
          match r3.drop (r3.takeWhile (fun d => d ≠ ')')).length with
          | ')' :: r4 => some r4
          | _ => none
      | _ => none
    else none
  | _ => none

/-- Matcher for `=\s*%s` at the head. -/
def m2 : List Char → Option (List Char)
  | [] => none
  | c :: r =>
    if c = '=' then
      match r.dropWhile isPyWs with
      | '%' :: 's' :: r3 => some r3
      | _ => none
    else none

/-- Matcher for `=\s*\d+` at the head. -/
def m3 : List Char → Option (List Char)
  | [] => none
  | c :: r =>
    if c = '=' then
      if ((r.dropWhile isPyWs).takeWhile Char.isDigit).isEmpty then none
      else some ((r.dropWhile isPyWs).drop ((r.dropWhile isPyWs).takeWhile Char.isDigit).length)
    else none

/-- Matcher for `=\s*'[^']+'` at the head. -/
def m4 : List Char → Option (List Char)
  | [] => none
  | c :: r =>
    if c = '=' then
      match r.dropWhile isPyWs with
      | '\'' :: r3 =>
        if (r3.takeWhile (fun d => d ≠ '\'')).isEmpty then none
        else
          match r3.drop (r3.takeWhile (fun d => d ≠ '\'')).length with
          | '\'' :: r4 => some r4
          | _ => none
      | _ => none
    else none

/-- Fuel-driven loop of `re.sub(pattern, repl, l)`: scan left to
right; where the matcher fires, emit `repl` and continue after the
matched span, otherwise copy one character. -/
def subFuel (m : List Char → Option (List Char)) (repl : List Char) :
    Nat → List Char → List Char
  | 0, l => l
  | _ + 1, [] => []
  | fuel + 1, c :: t =>
    match m (c :: t) with
    | some rest => repl ++ subFuel m repl fuel rest
    | none => c :: subFuel m repl fuel t

/-- `re.sub(pattern, repl, l)` with a matcher `m` consuming at least
one character at every match. -/
def subRepl (m : List Char → Option (List Char)) (repl : List Char) (l : List Char) :
    List Char :=
  subFuel m repl l.length l

/-- The composite normalizer of `CapturedQuery.get_base_query` on
character lists: whitespace collapse then the four substitutions in
source order. -/
def normChars (l : List Char) : List Char :=
  subRepl m4 eqRepl (subRepl m3 eqRepl (subRepl m2 eqRepl
    (subRepl m1 inRepl (collapseWs l))))

/-- `CapturedQuery.get_base_query` as a function of the raw SQL text. -/
def normalizeSql (s : String) : String := String.mk (normChars s.data)

/-!
Data model.  Exceptions are modelled as `String` values carried through
`Except`; clock readings and the call-site stack are inputs of the hook
(the Python code reads them from `time` / `traceback`).
-/

/-- `CapturedQuery` dataclass. -/
structure CapturedQuery where
  sql : String
  params : List String
  duration : Nat
  timestamp : Nat
  stack_trace : List String
  query_type : String
  table_names : List String
  status : String
  exception : Option String
deriving DecidableEq, Repr

/-- `CapturedQuery.get_base_query`. -/
def CapturedQuery.get_base_query (q : CapturedQuery) : String := normalizeSql q.sql

/-- `QueryCollector` state: the log and the active flag. -/
structure QueryCollector where
  queries : List CapturedQuery
  _active : Bool
deriving DecidableEq, Repr

/-- `QueryCollector()` constructor. -/
def QueryCollector.init : QueryCollector := { queries := [], _active := false }

/-- `QueryCollector.__call__`, Django's `execute_wrapper` hook.  The
wrapped executor may raise (`Except.error`); the pair returned is
(outcome propagated to the caller, updated collector). -/
def QueryCollector.call {Res Ctx : Type} (c : QueryCollector)
    (execute : String → List String → Bool → Ctx → Except String Res)
    (sql : String) (params : List String) (many : Bool) (context : Ctx)
    (stack_trace : List String) (timestamp : Nat) (elapsed : Nat) :
    Except String Res × QueryCollector :=
  if c._active = false then (execute sql params many context, c)
  else
    let query_type := _extract_query_type sql
    let table_names := _extract_table_names sql
    match execute sql params many context with
    | Except.ok r =>
      (Except.ok r, { c with queries := c.queries ++
        [⟨sql, params, elapsed, timestamp, stack_trace, query_type, table_names, "ok", none⟩] })
    | Except.error e =>
      (Except.error e, { c with queries := c.queries ++
        [⟨sql, params, elapsed, timestamp, stack_trace, query_type, table_names, "error", some e⟩] })

/-- `start_collection`: set active and clear the log. -/
def QueryCollector.start_collection (_c : QueryCollector) : QueryCollector :=
  { queries := [], _active := true }

/-- `stop_collection`: deactivate, log untouched. -/
def QueryCollector.stop_collection (c : QueryCollector) : QueryCollector :=
  { c with _active := false }

/-- `clear`: empty the log, flag untouched. -/
def QueryCollector.clear (c : QueryCollector) : QueryCollector :=
  { c with queries := [] }

/-- One externally triggered event of a collector session (for
sequence-of-invocations claims).  Executors and hook metadata are
carried in the event. -/
inductive CEvent where
  | startEv : CEvent
  | stopEv : CEvent
  | clearEv : CEvent
  | callEv (execute : String → List String → Bool → Nat → Except String Nat)
      (sql : String) (params : List String) (many : Bool) (context : Nat)
      (stack_trace : List String) (timestamp : Nat) (elapsed : Nat) : CEvent

/-- Apply one event to a collector. -/
def stepEvent (c : QueryCollector) : CEvent → QueryCollector
  | CEvent.startEv => c.start_collection
  | CEvent.stopEv => c.stop_collection
  | CEvent.clearEv => c.clear
  | CEvent.callEv ex sql ps m ctx st ts el => (c.call ex sql ps m ctx st ts el).2

/-- Run a sequence of events. -/
def runEvents (c : QueryCollector) (es : List CEvent) : QueryCollector :=
  es.foldl stepEvent c

/-- Specification mirror of `(log length, active flag)` across events:
a call made while active appends exactly one entry, a call made while
inactive appends nothing, `start` clears and activates, `clear` clears. -/
def specStep : Nat × Bool → CEvent → Nat × Bool
  | (_, _), CEvent.startEv => (0, true)
  | (n, _), CEvent.stopEv => (n, false)
  | (_, a), CEvent.clearEv => (0, a)
  | (n, a), CEvent.callEv .. => (if a then n + 1 else n, a)

/-!
Aggregation operations.  Python dicts preserve key insertion order, so
they are modelled as association lists to which new keys are appended
at the end.
-/

/-- Ordered-dict lookup. -/
def assocFind {α : Type} (d : List (String × α)) (k : String) : Option α :=
  match d.find? (fun p => p.1 = k) with
  | some p => some p.2
  | none => none

/-- `d[k].append(q)` for a dict of lists with `k` already present. -/
def assocPush (d : List (String × List CapturedQuery)) (k : String) (q : CapturedQuery) :
    List (String × List CapturedQuery) :=
  d.map (fun p => if p.1 = k then (p.1, p.2 ++ [q]) else p)

/-- The trimmed-SQL grouping key of `get_duplicate_queries`. -/
def stripKey (q : CapturedQuery) : String := String.mk (pyStrip q.sql.data)

/-- Loop body of `get_duplicate_queries`: state is `(duplicates, seen)`. -/
def dupStep (st : List (String × List CapturedQuery) × List (String × CapturedQuery))
    (q : CapturedQuery) :
    List (String × List CapturedQuery) × List (String × CapturedQuery) :=
  let key := stripKey q
  match assocFind st.2 key with
  | some first =>
    match assocFind st.1 key with
    | some _ => (assocPush st.1 key q, st.2)
    | none => (st.1 ++ [(key, [first, q])], st.2)
  | none => (st.1, st.2 ++ [(key, q)])

/-- `QueryCollector.get_duplicate_queries`. -/
def QueryCollector.get_duplicate_queries (c : QueryCollector) :
    List (String × List CapturedQuery) :=
  (c.queries.foldl dupStep ([], [])).1

/-- Loop body of `get_similar_queries`. -/
def simStep (d : List (String × List CapturedQuery)) (q : CapturedQuery) :
    List (String × List CapturedQuery) :=
  let k := q.get_base_query
  match assocFind d k with
  | some _ => assocPush d k q
  | none => d ++ [(k, [q])]

/-- `QueryCollector.get_similar_queries`. -/
def QueryCollector.get_similar_queries (c : QueryCollector) :
    List (String × List CapturedQuery) :=
  (c.queries.foldl simStep []).filter (fun p => 1 < p.2.length)

/-- The fixed keyword set of the classification claim. -/
def kwSet : List String :=
  ["SELECT", "INSERT", "UPDATE", "DELETE", "CREATE", "DROP", "ALTER"]

/-- The leading keyword of a statement: the first whitespace-delimited
token of the trimmed, uppercased text. -/
def leadingKeyword (s : String) : String :=
  String.mk ((pyUpper (pyStrip s.data)).takeWhile (fun c => !(isPyWs c)))

/-- A captured entry as the active hook would build it for a
successful execution with no parameters and zero clock readings. -/
def mkQ (sql : String) : CapturedQuery :=
  ⟨sql, [], 0, 0, [], _extract_query_type sql, _extract_table_names sql, "ok", none⟩

/-- Five same-shape statements with different integer literals. -/
def fiveSimilar : List CapturedQuery :=
  [mkQ "SELECT * FROM t WHERE id = 1", mkQ "SELECT * FROM t WHERE id = 2",
    mkQ "SELECT * FROM t WHERE id = 3", mkQ "SELECT * FROM t WHERE id = 4",
    mkQ "SELECT * FROM t WHERE id = 5"]

/-- The order in which distinct trimmed texts reach their second
occurrence while scanning the log left to right: the key order of the
`duplicates` dict. -/
def dupKeyOrder : List CapturedQuery → List String → List String → List String
  | [], _, _ => []
  | q :: qs, seen, dups =>
    if stripKey q ∈ seen then
      if stripKey q ∈ dups then dupKeyOrder qs seen dups
      else stripKey q :: dupKeyOrder qs seen (stripKey q :: dups)
    else dupKeyOrder qs (stripKey q :: seen) dups

/-- The order the claim states: distinct trimmed texts of duplicated
entries in the order those texts are first seen in the log. -/
def firstSeenDupOrder (qs : List CapturedQuery) : List String :=
  dedupAux []
    ((qs.filter (fun q => 2 ≤ (qs.filter (fun r => stripKey r = stripKey q)).length)).map stripKey)

/-- No matcher fires at any suffix of `l`. -/
def NoM (m : List Char → Option (List Char)) (l : List Char) : Prop :=
  ∀ u, u <:+ l → m u = none

/-- Every `m1` match inside `l` is literally the replacement text
`IN (?)` (so replacing it changes nothing). -/
def SelfM1 (l : List Char) : Prop :=
  ∀ u r, u <:+ l → m1 u = some r → u = inRepl ++ r

/-- First non-whitespace character. -/
def fnw (l : List Char) : Option Char := (l.dropWhile isPyWs).head?

/-- Every whitespace character in `l` is a plain space. -/
def wsOk (l : List Char) : Prop := ∀ c ∈ l, isPyWs c = true → c = ' '

/-- No two adjacent spaces. -/
def noDbl (l : List Char) : Prop := List.Chain' (fun a b => ¬(a = ' ' ∧ b = ' ')) l

/-- Collapsed text: only plain single spaces, none leading/trailing —
exactly the image of `" ".join(s.split())`. -/
def Cws (l : List Char) : Prop :=
  wsOk l ∧ noDbl l ∧ l.head? ≠ some ' ' ∧ l.getLast? ≠ some ' '

/-!
Supporting lemmas and claim theorems.
-/

theorem isPrefixOf_cons_cons (a b : Char) (as bs : List Char) :
    (a :: as).isPrefixOf (b :: bs) = (a == b && as.isPrefixOf bs) := rfl

theorem isPrefixOf_self_append (a b : List Char) : a.isPrefixOf (a ++ b) = true := by
  induction a with
  | nil => simp [List.isPrefixOf]
  | cons c t ih => simp [isPrefixOf_cons_cons, ih]

theorem length_dropWhile_le (p : Char → Bool) (l : List Char) :
    (l.dropWhile p).length ≤ l.length :=
  (List.dropWhile_suffix p).sublist.length_le

theorem afterKws_length_le :
    ∀ (kws : List (List Char)) (l r : List Char), afterKws kws l = some r → r.length ≤ l.length := by
  intro kws
  induction kws with
  | nil =>
    intro l r h
    simp only [afterKws, Option.some.injEq] at h
    subst h
    exact Nat.le_refl _
  | cons kw kws ih =>
    intro l r h
    simp only [afterKws] at h
    split at h
    · split at h
      · simp only [Option.some.injEq] at h
        subst h
        calc (l.drop kw.length).length = l.length - kw.length := l.length_drop kw.length
          _ ≤ l.length := Nat.sub_le _ _
      · rename_i kw2 kws2
        split at h
        · exact absurd h (by simp)
        · rename_i c rest heq
          split at h
          · have h1 := ih _ _ h
            have h2 : (rest.dropWhile isPyWs).length ≤ rest.length := length_dropWhile_le isPyWs rest
            have h3 : (c :: rest).length ≤ l.length := by
              rw [← heq]
              calc (l.drop kw.length).length = l.length - kw.length := l.length_drop kw.length
                _ ≤ l.length := Nat.sub_le _ _
            simp only [List.length_cons] at h3
            omega
          · exact absurd h (by simp)
    · exact absurd h (by simp)

theorem tokenAfterWs_length_lt {excl : Char → Bool} {l tok rest : List Char}
    (h : tokenAfterWs excl l = some (tok, rest)) : rest.length < l.length := by
  cases l with
  | nil => exact absurd h (by simp [tokenAfterWs])
  | cons c rest' =>
    simp only [tokenAfterWs] at h
    split at h
    · split at h
      · exact absurd h (by simp)
      · simp only [Option.some.injEq, Prod.mk.injEq] at h
        obtain ⟨-, h2⟩ := h
        subst h2
        have h3 : (rest'.dropWhile isPyWs).length ≤ rest'.length := length_dropWhile_le isPyWs rest'
        have h4 : ((rest'.dropWhile isPyWs).drop
            (rest'.dropWhile isPyWs |>.takeWhile (fun d => !(isPyWs d) && !(excl d))).length).length ≤
            (rest'.dropWhile isPyWs).length := by
          rw [List.length_drop]; exact Nat.sub_le _ _
        simp only [List.length_cons]
        omega
    · exact absurd h (by simp)

theorem matchAtP_length_lt {kws : List (List Char)} {excl : Char → Bool} {l tok rest : List Char}
    (h : matchAtP kws excl l = some (tok, rest)) : rest.length < l.length := by
  unfold matchAtP at h
  cases hA : afterKws kws l with
  | none => rw [hA] at h; exact absurd h (by simp)
  | some r =>
    rw [hA] at h
    have h' : tokenAfterWs excl r = some (tok, rest) := h
    calc rest.length < r.length := tokenAfterWs_length_lt h'
      _ ≤ l.length := afterKws_length_le kws l r hA

theorem findAllFuel_congr (kws : List (List Char)) (excl : Char → Bool) :
    ∀ (f1 f2 : Nat) (l : List Char), l.length ≤ f1 → l.length ≤ f2 →
      findAllFuel kws excl f1 l = findAllFuel kws excl f2 l := by
  intro f1
  induction f1 with
  | zero =>
    intro f2 l h1 _
    have : l = [] := List.length_eq_zero.mp (Nat.le_zero.mp h1)
    subst this
    cases f2 <;> rfl
  | succ f1 ih =>
    intro f2 l h1 h2
    cases l with
    | nil => cases f2 <;> rfl
    | cons c t =>
      cases f2 with
      | zero => simp at h2
      | succ f2 =>
        simp only [findAllFuel]
        cases hM : matchAtP kws excl (c :: t) with
        | some x =>
          obtain ⟨tok, rest⟩ := x
          have hlt := matchAtP_length_lt hM
          simp only [List.length_cons] at h1 h2 hlt
          dsimp only
          rw [ih f2 rest (by omega) (by omega)]
        | none =>
          simp only [List.length_cons] at h1 h2
          dsimp only
          rw [ih f2 t (by omega) (by omega)]

theorem findAllP_nil (kws : List (List Char)) (excl : Char → Bool) :
    findAllP kws excl [] = [] := rfl

theorem findAllP_cons (kws : List (List Char)) (excl : Char → Bool) (c : Char) (t : List Char) :
    findAllP kws excl (c :: t) =
      match matchAtP kws excl (c :: t) with
      | some (tok, rest) => tok :: findAllP kws excl rest
      | none => findAllP kws excl t := by
  show findAllFuel kws excl (c :: t).length (c :: t) = _
  simp only [List.length_cons, findAllFuel]
  cases hM : matchAtP kws excl (c :: t) with
  | some x =>
    obtain ⟨tok, rest⟩ := x
    have hlt := matchAtP_length_lt hM
    simp only [List.length_cons] at hlt
    exact congrArg (tok :: ·) (findAllFuel_congr kws excl t.length rest.length rest (by omega) (by omega))
  | none =>
    exact findAllFuel_congr kws excl t.length t.length t (by omega) (by omega)

theorem splitFuel_congr :
    ∀ (f1 f2 : Nat) (l : List Char), l.length ≤ f1 → l.length ≤ f2 →
      splitFuel f1 l = splitFuel f2 l := by
  intro f1
  induction f1 with
  | zero =>
    intro f2 l h1 _
    have : l = [] := List.length_eq_zero.mp (Nat.le_zero.mp h1)
    subst this
    cases f2 with
    | zero => rfl
    | succ f2 => simp [splitFuel, List.dropWhile]
  | succ f1 ih =>
    intro f2 l h1 h2
    cases f2 with
    | zero =>
      have : l = [] := List.length_eq_zero.mp (Nat.le_zero.mp h2)
      subst this
      simp [splitFuel, List.dropWhile]
    | succ f2 =>
      simp only [splitFuel]
      cases hD : l.dropWhile isPyWs with
      | nil => rfl
      | cons c t =>
        have hDl : (c :: t).length ≤ l.length := by
          rw [← hD]; exact length_dropWhile_le isPyWs l
        have hT := length_dropWhile_le (fun d => !(isPyWs d)) t
        simp only [List.length_cons] at hDl
        dsimp only
        rw [ih f2 (t.dropWhile (fun d => !(isPyWs d))) (by omega) (by omega)]

theorem pySplitWords_eq (l : List Char) :
    pySplitWords l =
      match l.dropWhile isPyWs with
      | [] => []
      | c :: t =>
        (c :: t.takeWhile (fun d => !(isPyWs d))) ::
          pySplitWords (t.dropWhile (fun d => !(isPyWs d))) := by
  show splitFuel l.length l = _
  cases hL : l.length with
  | zero =>
    have : l = [] := List.length_eq_zero.mp hL
    subst this
    simp [splitFuel, List.dropWhile]
  | succ n =>
    simp only [splitFuel]
    cases hD : l.dropWhile isPyWs with
    | nil => rfl
    | cons c t =>
      have hDl : (c :: t).length ≤ l.length := by
        rw [← hD]; exact length_dropWhile_le isPyWs l
      have hT := length_dropWhile_le (fun d => !(isPyWs d)) t
      simp only [List.length_cons] at hDl
      rw [hL] at hDl
      exact congrArg _ (splitFuel_congr n (t.dropWhile (fun d => !(isPyWs d))).length
        (t.dropWhile (fun d => !(isPyWs d))) (by omega) (by omega))

theorem drop_cons_length_lt {x : List Char} {k : Nat} {c : Char} {r : List Char}
    (h : x.drop k = c :: r) : r.length < x.length := by
  have h1 : (x.drop k).length ≤ x.length := by
    rw [List.length_drop]; exact Nat.sub_le _ _
  rw [h] at h1
  simp only [List.length_cons] at h1
  omega

theorem m1_lt : ∀ l r, m1 l = some r → r.length < l.length := by
  intro l r h
  match l with
  | [] => exact absurd h (by simp [m1])
  | [a] => exact absurd h (by simp [m1])
  | a :: b :: t =>
    simp only [m1] at h
    split at h
    · split at h
      · rename_i r3 heq3
        split at h
        · exact absurd h (by simp)
        · split at h
          · rename_i r4 heq4
            simp only [Option.some.injEq] at h
            subst h
            have h1 := drop_cons_length_lt heq4
            have h2 : (t.dropWhile isPyWs).length ≤ t.length := length_dropWhile_le isPyWs t
            rw [heq3] at h2
            simp only [List.length_cons] at h2 ⊢
            omega
          · exact absurd h (by simp)
      · exact absurd h (by simp)
    · exact absurd h (by simp)

theorem length_takeWhile_le (p : Char → Bool) (l : List Char) :
    (l.takeWhile p).length ≤ l.length := by
  induction l with
  | nil => simp
  | cons c t ih =>
    rw [List.takeWhile_cons]
    split
    · simp only [List.length_cons]
      omega
    · simp

theorem m2_lt : ∀ l r, m2 l = some r → r.length < l.length := by
  intro l r h
  cases l with
  | nil => exact absurd h (by simp [m2])
  | cons c rt =>
    simp only [m2] at h
    split at h
    · split at h
      · rename_i r3 heq3
        simp only [Option.some.injEq] at h
        subst h
        have h2 := length_dropWhile_le isPyWs rt
        rw [heq3] at h2
        simp only [List.length_cons] at h2 ⊢
        omega
      · exact absurd h (by simp)
    · exact absurd h (by simp)

theorem m3_lt : ∀ l r, m3 l = some r → r.length < l.length := by
  intro l r h
  cases l with
  | nil => exact absurd h (by simp [m3])
  | cons c rt =>
    simp only [m3] at h
    split at h
    · split at h
      · exact absurd h (by simp)
      · rename_i hne
        simp only [Option.some.injEq] at h
        subst h
        have h2 := length_dropWhile_le isPyWs rt
        have h3 : ((rt.dropWhile isPyWs).takeWhile Char.isDigit).length ≠ 0 := by
          simpa [List.isEmpty_iff, List.length_eq_zero] using hne
        have h4 := length_takeWhile_le Char.isDigit (rt.dropWhile isPyWs)
        rw [List.length_drop]
        simp only [List.length_cons]
        omega
    · exact absurd h (by simp)

theorem m4_lt : ∀ l r, m4 l = some r → r.length < l.length := by
  intro l r h
  cases l with
  | nil => exact absurd h (by simp [m4])
  | cons c rt =>
    simp only [m4] at h
    split at h
    · split at h
      · rename_i r3 heq3
        split at h
        · exact absurd h (by simp)
        · split at h
          · rename_i r4 heq4
            simp only [Option.some.injEq] at h
            subst h
            have h1 := drop_cons_length_lt heq4
            have h2 := length_dropWhile_le isPyWs rt
            rw [heq3] at h2
            simp only [List.length_cons] at h2 ⊢
            omega
          · exact absurd h (by simp)
      · exact absurd h (by simp)
    · exact absurd h (by simp)

theorem subFuel_congr (m : List Char → Option (List Char)) (repl : List Char)
    (hm : ∀ l r, m l = some r → r.length < l.length) :
    ∀ (f1 f2 : Nat) (l : List Char), l.length ≤ f1 → l.length ≤ f2 →
      subFuel m repl f1 l = subFuel m repl f2 l := by
  intro f1
  induction f1 with
  | zero =>
    intro f2 l h1 _
    have : l = [] := List.length_eq_zero.mp (Nat.le_zero.mp h1)
    subst this
    cases f2 <;> rfl
  | succ f1 ih =>
    intro f2 l h1 h2
    cases l with
    | nil => cases f2 <;> rfl
    | cons c t =>
      cases f2 with
      | zero => simp at h2
      | succ f2 =>
        simp only [subFuel]
        cases hM : m (c :: t) with
        | some rest =>
          have hlt := hm _ _ hM
          simp only [List.length_cons] at h1 h2 hlt
          dsimp only
          rw [ih f2 rest (by omega) (by omega)]
        | none =>
          simp only [List.length_cons] at h1 h2
          dsimp only
          rw [ih f2 t (by omega) (by omega)]

theorem subRepl_nil (m : List Char → Option (List Char)) (repl : List Char) :
    subRepl m repl [] = [] := rfl

theorem subRepl_cons (m : List Char → Option (List Char)) (repl : List Char)
    (hm : ∀ l r, m l = some r → r.length < l.length) (c : Char) (t : List Char) :
    subRepl m repl (c :: t) =
      match m (c :: t) with
      | some rest => repl ++ subRepl m repl rest
      | none => c :: subRepl m repl t := by
  show subFuel m repl (c :: t).length (c :: t) = _
  simp only [List.length_cons, subFuel]
  cases hM : m (c :: t) with
  | some rest =>
    have hlt := hm _ _ hM
    simp only [List.length_cons] at hlt
    exact congrArg (repl ++ ·) (subFuel_congr m repl hm t.length rest.length rest (by omega) (by omega))
  | none =>
    exact congrArg (c :: ·) (subFuel_congr m repl hm t.length t.length t (by omega) (by omega))

/-- Claim C1: if collection is active and the wrapped executor raises,
the hook appends exactly one new CapturedQuery with status `"error"`
holding the raised error to the log, and re-raises that same error
unchanged to its caller; it never suppresses or transforms the wrapped
call's outcome. -/
theorem claim_C1 {Res Ctx : Type} (c : QueryCollector)
    (execute : String → List String → Bool → Ctx → Except String Res)
    (sql : String) (params : List String) (many : Bool) (context : Ctx)
    (stack_trace : List String) (timestamp elapsed : Nat) (e : String)
    (hact : c._active = true)
    (herr : execute sql params many context = Except.error e) :
    (c.call execute sql params many context stack_trace timestamp elapsed).1 = Except.error e ∧
    (c.call execute sql params many context stack_trace timestamp elapsed).2.queries =
      c.queries ++ [⟨sql, params, elapsed, timestamp, stack_trace,
        _extract_query_type sql, _extract_table_names sql, "error", some e⟩] := by
  simp [QueryCollector.call, hact, herr]

/-- Witness for C1 at a concrete active collector and raising executor. -/
theorem claim_C1_witness :
    ((QueryCollector.mk [] true).call
        (fun _ _ _ _ => (Except.error "boom" : Except String Nat))
        "SELECT 1" [] false (0 : Nat) [] 0 0).1 = Except.error "boom" ∧
    ((QueryCollector.mk [] true).call
        (fun _ _ _ _ => (Except.error "boom" : Except String Nat))
        "SELECT 1" [] false (0 : Nat) [] 0 0).2.queries =
      [] ++ [⟨"SELECT 1", [], 0, 0, [],
        _extract_query_type "SELECT 1", _extract_table_names "SELECT 1",
        "error", some "boom"⟩] :=
  claim_C1 (QueryCollector.mk [] true) (fun _ _ _ _ => Except.error "boom")
    "SELECT 1" [] false 0 [] 0 0 "boom" rfl rfl

/-- Claim C2: across any event sequence, the pair (log length, active
flag) follows the mirror `specStep`: an invocation while active
appends exactly one entry, an invocation while inactive forwards to
the executor with the same arguments, returns its result unchanged and
leaves the collector untouched. -/
theorem claim_C2 :
    (∀ (c : QueryCollector) (es : List CEvent),
      ((runEvents c es).queries.length, (runEvents c es)._active) =
        es.foldl specStep (c.queries.length, c._active)) ∧
    (∀ {Res Ctx : Type} (c : QueryCollector)
      (execute : String → List String → Bool → Ctx → Except String Res)
      (sql : String) (params : List String) (many : Bool) (context : Ctx)
      (stack_trace : List String) (timestamp elapsed : Nat),
      c._active = false →
      c.call execute sql params many context stack_trace timestamp elapsed =
        (execute sql params many context, c)) ∧
    (∀ {Res Ctx : Type} (c : QueryCollector)
      (execute : String → List String → Bool → Ctx → Except String Res)
      (sql : String) (params : List String) (many : Bool) (context : Ctx)
      (stack_trace : List String) (timestamp elapsed : Nat),
      c._active = true →
      ∃ q : CapturedQuery,
        (c.call execute sql params many context stack_trace timestamp elapsed).2.queries =
          c.queries ++ [q]) := by
  refine ⟨?_, ?_, ?_⟩
  · intro c es
    induction es generalizing c with
    | nil => rfl
    | cons ev es ih =>
      rw [runEvents, List.foldl_cons, List.foldl_cons, ← runEvents, ih]
      congr 1
      cases ev with
      | startEv => rfl
      | stopEv => rfl
      | clearEv => rfl
      | callEv ex sql ps m ctx st ts el =>
        cases hact : c._active with
        | false => simp [stepEvent, QueryCollector.call, hact, specStep]
        | true =>
          cases hex : ex sql ps m ctx with
          | ok r => simp [stepEvent, QueryCollector.call, hact, hex, specStep]
          | error e => simp [stepEvent, QueryCollector.call, hact, hex, specStep]
  · intro Res Ctx c execute sql params many context st ts el h
    simp [QueryCollector.call, h]
  · intro Res Ctx c execute sql params many context st ts el h
    cases hex : execute sql params many context with
    | ok r =>
      exact ⟨⟨sql, params, el, ts, st, _extract_query_type sql,
        _extract_table_names sql, "ok", none⟩, by simp [QueryCollector.call, h, hex]⟩
    | error e =>
      exact ⟨⟨sql, params, el, ts, st, _extract_query_type sql,
        _extract_table_names sql, "error", some e⟩, by simp [QueryCollector.call, h, hex]⟩

/-- Witness for C2 at concrete inactive and active collectors. -/
theorem claim_C2_witness :
    ((QueryCollector.mk [] false).call
        (fun _ _ _ _ => (Except.ok 7 : Except String Nat)) "SELECT 1" [] false (0 : Nat) [] 0 0 =
      (Except.ok 7, QueryCollector.mk [] false)) ∧
    (∃ q : CapturedQuery,
      ((QueryCollector.mk [] true).call
          (fun _ _ _ _ => (Except.ok 7 : Except String Nat)) "SELECT 1" [] false (0 : Nat) [] 0 0).2.queries =
        [] ++ [q]) :=
  ⟨claim_C2.2.1 (QueryCollector.mk [] false) (fun _ _ _ _ => Except.ok 7)
      "SELECT 1" [] false 0 [] 0 0 rfl,
    claim_C2.2.2 (QueryCollector.mk [] true) (fun _ _ _ _ => Except.ok 7)
      "SELECT 1" [] false 0 [] 0 0 rfl⟩

theorem classifyChars_append (kw : String) (hkw : kw ∈ kwSet) (rest : List Char) :
    classifyChars (kw.data ++ rest) = kw := by
  simp only [kwSet, List.mem_cons, List.not_mem_nil, or_false] at hkw
  rcases hkw with rfl | rfl | rfl | rfl | rfl | rfl | rfl <;>
    simp [classifyChars, isPrefixOf_cons_cons, isPrefixOf_self_append]

/-- Claim C4 (amended): classification is prefix matching on the
trimmed, uppercased statement.  Any statement whose leading keyword is
one of the seven classifies as that keyword (case- and
leading-whitespace-insensitively), and a statement none of the seven
keywords is a prefix of classifies as OTHER; but a statement whose
leading keyword merely extends a keyword (`SELECTION …`) classifies as
that keyword, not OTHER. -/
theorem claim_C4 :
    (∀ s : String, leadingKeyword s ∈ kwSet → _extract_query_type s = leadingKeyword s) ∧
    (∀ s : String,
      (∀ kw ∈ kwSet, kw.data.isPrefixOf (pyUpper (pyStrip s.data)) = false) →
      _extract_query_type s = "OTHER") ∧
    _extract_query_type "EXPLAIN SELECT 1" = "OTHER" ∧
    _extract_query_type "  insert into t values (1)" = "INSERT" := by
  refine ⟨?_, ?_, by decide, by decide⟩
  · intro s hmem
    have hdec : pyUpper (pyStrip s.data) =
        (leadingKeyword s).data ++ (pyUpper (pyStrip s.data)).dropWhile (fun c => !(isPyWs c)) := by
      show pyUpper (pyStrip s.data) =
        (pyUpper (pyStrip s.data)).takeWhile (fun c => !(isPyWs c)) ++
          (pyUpper (pyStrip s.data)).dropWhile (fun c => !(isPyWs c))
      exact (List.takeWhile_append_dropWhile _ _).symm
    rw [_extract_query_type, hdec]
    exact classifyChars_append _ hmem _
  · intro s h
    have h1 := h "SELECT" (by simp [kwSet])
    have h2 := h "INSERT" (by simp [kwSet])
    have h3 := h "UPDATE" (by simp [kwSet])
    have h4 := h "DELETE" (by simp [kwSet])
    have h5 := h "CREATE" (by simp [kwSet])
    have h6 := h "DROP" (by simp [kwSet])
    have h7 := h "ALTER" (by simp [kwSet])
    rw [_extract_query_type]
    simp [classifyChars, h1, h2, h3, h4, h5, h6, h7]

/-- Witness for C4 at concrete statements. -/
theorem claim_C4_witness :
    _extract_query_type "delete from t" = leadingKeyword "delete from t" ∧
    _extract_query_type "EXPLAIN SELECT 1" = "OTHER" :=
  ⟨claim_C4.1 "delete from t" (by decide), claim_C4.2.1 "EXPLAIN SELECT 1" (by decide)⟩

/-- Counterexample for C4 as stated: the leading keyword of
`"SELECTION FROM T"` is `SELECTION`, which is not in the fixed set, yet
the code classifies the statement as SELECT (prefix match), not OTHER. -/
theorem claim_C4_counterexample :
    leadingKeyword "SELECTION FROM T" = "SELECTION" ∧
    "SELECTION" ∉ kwSet ∧
    _extract_query_type "SELECTION FROM T" = "SELECT" ∧
    "SELECT" ≠ "OTHER" := by
  refine ⟨by decide, by decide, by decide, by decide⟩

theorem uint32_le_left {a : UInt32} {n : Nat} (hn : n < UInt32.size) :
    ((UInt32.ofNat n) ≤ a) ↔ n ≤ a.toNat := by
  simp [UInt32.le_def, BitVec.le_def, UInt32.toNat, UInt32.toBitVec_eq_of_lt hn]

theorem uint32_le_right {a : UInt32} {n : Nat} (hn : n < UInt32.size) :
    (a ≤ (UInt32.ofNat n)) ↔ a.toNat ≤ n := by
  simp [UInt32.le_def, BitVec.le_def, UInt32.toNat, UInt32.toBitVec_eq_of_lt hn]

theorem isUpper_iff (c : Char) : c.isUpper = true ↔ 65 ≤ c.toNat ∧ c.toNat ≤ 90 := by
  show (decide (c.val ≥ 65) && decide (c.val ≤ 90)) = true ↔ _
  rw [Bool.and_eq_true, decide_eq_true_iff, decide_eq_true_iff]
  constructor
  · rintro ⟨h1, h2⟩
    exact ⟨(uint32_le_left (by decide)).mp h1, (uint32_le_right (by decide)).mp h2⟩
  · rintro ⟨h1, h2⟩
    exact ⟨(uint32_le_left (by decide)).mpr h1, (uint32_le_right (by decide)).mpr h2⟩

theorem toNat_ofNat_valid {n : Nat} (h : n.isValidChar) : (Char.ofNat n).toNat = n := by
  rw [Char.ofNat, dif_pos h]
  rfl

theorem toLower_eq (c : Char) :
    Char.toLower c = if 65 ≤ c.toNat ∧ c.toNat ≤ 90 then Char.ofNat (c.toNat + 32) else c := rfl

theorem toLower_not_upper (c : Char) : (Char.toLower c).isUpper = false := by
  rw [toLower_eq]
  split
  · rename_i h
    have hval : (c.toNat + 32).isValidChar := Or.inl (by omega)
    rw [← Bool.not_eq_true]
    intro hup
    have := (isUpper_iff _).mp hup
    rw [toNat_ofNat_valid hval] at this
    omega
  · rename_i h
    rw [← Bool.not_eq_true]
    intro hup
    exact h ((isUpper_iff _).mp hup |> fun ⟨a, b⟩ => ⟨a, b⟩)

theorem toLower_ne_low (c d : Char) (hd : d.toNat < 97) (hcd : c ≠ d) :
    Char.toLower c ≠ d := by
  rw [toLower_eq]
  split
  · rename_i h
    intro heq
    have hval : (c.toNat + 32).isValidChar := Or.inl (by omega)
    have := congrArg Char.toNat heq
    rw [toNat_ofNat_valid hval] at this
    omega
  · exact hcd

theorem dedupAux_subset :
    ∀ (ts seen : List String) (x : String), x ∈ dedupAux seen ts → x ∈ ts := by
  intro ts
  induction ts with
  | nil => intro seen x h; exact absurd h (by simp [dedupAux])
  | cons t ts ih =>
    intro seen x h
    simp only [dedupAux] at h
    split at h
    · exact List.mem_cons_of_mem _ (ih seen x h)
    · rcases List.mem_cons.mp h with rfl | h2
      · exact List.mem_cons_self _ _
      · exact List.mem_cons_of_mem _ (ih _ x h2)

theorem dedupAux_not_mem_seen :
    ∀ (ts seen : List String) (x : String), x ∈ dedupAux seen ts → x ∉ seen := by
  intro ts
  induction ts with
  | nil => intro seen x h; exact absurd h (by simp [dedupAux])
  | cons t ts ih =>
    intro seen x h
    simp only [dedupAux] at h
    split at h
    · exact ih seen x h
    · rcases List.mem_cons.mp h with rfl | h2
      · assumption
      · have := ih _ x h2
        intro hx
        exact this (List.mem_cons_of_mem _ hx)

theorem dedupAux_nodup : ∀ (ts seen : List String), (dedupAux seen ts).Nodup := by
  intro ts
  induction ts with
  | nil => intro seen; simp [dedupAux]
  | cons t ts ih =>
    intro seen
    simp only [dedupAux]
    split
    · exact ih seen
    · refine List.nodup_cons.mpr ⟨?_, ih _⟩
      intro hmem
      exact dedupAux_not_mem_seen ts (t :: seen) t hmem (List.mem_cons_self _ _)

theorem dedupAux_sublist : ∀ (ts seen : List String), List.Sublist (dedupAux seen ts) ts := by
  intro ts
  induction ts with
  | nil => intro seen; simp [dedupAux]
  | cons t ts ih =>
    intro seen
    simp only [dedupAux]
    split
    · exact (ih seen).cons t
    · exact (ih (t :: seen)).cons₂ t

theorem mem_stripChar {q : Char} {l : List Char} {x : Char} (h : x ∈ stripChar q l) : x ∈ l := by
  rw [stripChar] at h
  rw [List.mem_reverse] at h
  have h2 := (List.dropWhile_suffix (fun c => c = q)).sublist.subset h
  rw [List.mem_reverse] at h2
  exact (List.dropWhile_suffix (fun c => c = q)).sublist.subset h2

theorem tokenAfterWs_token_chars {excl : Char → Bool} {l tok rest : List Char}
    (h : tokenAfterWs excl l = some (tok, rest)) :
    ∀ c ∈ tok, isPyWs c = false ∧ excl c = false := by
  cases l with
  | nil => exact absurd h (by simp [tokenAfterWs])
  | cons c0 rest' =>
    simp only [tokenAfterWs] at h
    split at h
    · split at h
      · exact absurd h (by simp)
      · simp only [Option.some.injEq, Prod.mk.injEq] at h
        obtain ⟨h1, -⟩ := h
        intro c hc
        rw [← h1] at hc
        have := List.mem_takeWhile_imp hc
        simp only [Bool.and_eq_true, Bool.not_eq_true'] at this
        exact this
    · exact absurd h (by simp)

theorem matchAtP_token_chars {kws : List (List Char)} {excl : Char → Bool} {l tok rest : List Char}
    (h : matchAtP kws excl l = some (tok, rest)) :
    ∀ c ∈ tok, isPyWs c = false ∧ excl c = false := by
  unfold matchAtP at h
  cases hA : afterKws kws l with
  | none => rw [hA] at h; exact absurd h (by simp)
  | some r =>
    rw [hA] at h
    exact tokenAfterWs_token_chars h

theorem searchP_token_chars {kws : List (List Char)} {excl : Char → Bool} :
    ∀ {u tok rest : List Char}, searchP kws excl u = some (tok, rest) →
    ∀ c ∈ tok, isPyWs c = false ∧ excl c = false := by
  intro u
  induction u with
  | nil => intro tok rest h; exact absurd h (by simp [searchP])
  | cons c0 t ih =>
    intro tok rest h
    simp only [searchP] at h
    split at h
    · rename_i x hx
      obtain ⟨tok', rest'⟩ := x
      simp only [Option.some.injEq] at h
      cases h
      exact matchAtP_token_chars hx
    · exact ih h

theorem mem_cand_lower {u : List Char} {x : String}
    (h : x ∈ candFrom u ++ candJoin u ++ candInsert u ++ candUpdate u ++ candDelete u) :
    ∃ t : List Char, t ≠ [] ∧ x = String.mk (pyLower t) := by
  simp only [List.mem_append] at h
  rcases h with ((((h | h) | h) | h) | h)
  · cases hs : searchP ["FROM".data] (fun c => c = ',') u with
    | none => rw [candFrom, hs] at h; exact absurd h (by simp)
    | some p =>
      obtain ⟨tok, rest⟩ := p
      rw [candFrom, hs] at h
      dsimp only at h
      split at h
      · rename_i cond
        simp only [List.mem_singleton] at h
        exact ⟨_, cond.1, h⟩
      · exact absurd h (by simp)
  · rw [candJoin] at h
    obtain ⟨tok, -, hf⟩ := List.mem_filterMap.mp h
    dsimp only at hf
    split at hf
    · rename_i cond
      simp only [Option.some.injEq] at hf
      exact ⟨_, cond, hf.symm⟩
    · exact absurd hf (by simp)
  · cases hs : searchP ["INSERT".data, "INTO".data] (fun c => c = '(') u with
    | none => rw [candInsert, hs] at h; exact absurd h (by simp)
    | some p =>
      obtain ⟨tok, rest⟩ := p
      rw [candInsert, hs] at h
      dsimp only at h
      split at h
      · rename_i cond
        simp only [List.mem_singleton] at h
        exact ⟨_, cond, h⟩
      · exact absurd h (by simp)
  · cases hs : searchP ["UPDATE".data] (fun _ => false) u with
    | none => rw [candUpdate, hs] at h; exact absurd h (by simp)
    | some p =>
      obtain ⟨tok, rest⟩ := p
      rw [candUpdate, hs] at h
      dsimp only at h
      split at h
      · rename_i cond
        simp only [List.mem_singleton] at h
        exact ⟨_, cond, h⟩
      · exact absurd h (by simp)
  · cases hs : searchP ["DELETE".data, "FROM".data] (fun _ => false) u with
    | none => rw [candDelete, hs] at h; exact absurd h (by simp)
    | some p =>
      obtain ⟨tok, rest⟩ := p
      rw [candDelete, hs] at h
      dsimp only at h
      split at h
      · rename_i cond
        simp only [List.mem_singleton] at h
        exact ⟨_, cond, h⟩
      · exact absurd h (by simp)

/-- Claim C8: every extraction result is duplicate-free, keeps the
candidates' first-seen order (it is a sublist of the accumulated
candidate list), and contains only identifiers with no uppercase
letters; on the claim's example it returns `["users", "orders"]`. -/
theorem claim_C8 :
    (∀ s : String, (_extract_table_names s).Nodup ∧
      List.Sublist (_extract_table_names s)
        (candFrom (pyUpper s.data) ++ candJoin (pyUpper s.data) ++ candInsert (pyUpper s.data) ++
          candUpdate (pyUpper s.data) ++ candDelete (pyUpper s.data)) ∧
      ∀ x ∈ _extract_table_names s, ∀ ch ∈ x.data, ch.isUpper = false) ∧
    _extract_table_names "SELECT * FROM users u JOIN orders o ON u.id=o.user_id" =
      ["users", "orders"] := by
  refine ⟨?_, by decide⟩
  intro s
  refine ⟨dedupAux_nodup _ _, dedupAux_sublist _ _, ?_⟩
  intro x hx ch hch
  obtain ⟨t, -, rfl⟩ := mem_cand_lower (dedupAux_subset _ _ _ hx)
  have hmem : ch ∈ pyLower t := hch
  obtain ⟨c, -, rfl⟩ := List.mem_map.mp hmem
  exact toLower_not_upper c

/-- Witness for C8 at a concrete statement, name and character. -/
theorem claim_C8_witness :
    (_extract_table_names "SELECT * FROM users").Nodup ∧ ('u').isUpper = false :=
  ⟨(claim_C8.1 "SELECT * FROM users").1,
    (claim_C8.1 "SELECT * FROM users").2.2 "users" (by decide) 'u' (by decide)⟩

/-- Claim C5 (amended): only the FROM branch discards a candidate
opening with `(` (and the INSERT INTO branch cannot capture `(` at
all, its token class excludes it); the JOIN branch appends such
candidates, as the parenthesized-subquery example shows. -/
theorem claim_C5 :
    (∀ (u : List Char), ∀ x ∈ candFrom u, x.data.head? ≠ some '(') ∧
    (∀ (u : List Char), ∀ x ∈ candInsert u, '(' ∉ x.data) ∧
    "(select" ∈ _extract_table_names "SELECT * FROM a JOIN (SELECT id FROM b) c ON x" := by
  refine ⟨?_, ?_, by decide⟩
  · intro u x hx
    cases hs : searchP ["FROM".data] (fun c => c = ',') u with
    | none => rw [candFrom, hs] at hx; exact absurd hx (by simp)
    | some p =>
      obtain ⟨tok, rest⟩ := p
      rw [candFrom, hs] at hx
      dsimp only at hx
      split at hx
      · rename_i cond
        obtain ⟨hne, hhd⟩ := cond
        simp only [List.mem_singleton] at hx
        subst hx
        show (pyLower (stripChar '\'' (stripChar '"' tok))).head? ≠ some '('
        cases ht : stripChar '\'' (stripChar '"' tok) with
        | nil => exact absurd ht hne
        | cons c t' =>
          rw [ht] at hhd
          simp only [pyLower, List.map_cons, List.head?_cons]
          intro heq
          simp only [Option.some.injEq] at heq
          have hcne : c ≠ '(' := by
            intro hc
            subst hc
            exact hhd rfl
          exact toLower_ne_low c '(' (by decide) hcne heq
      · exact absurd hx (by simp)
  · intro u x hx
    cases hs : searchP ["INSERT".data, "INTO".data] (fun c => c = '(') u with
    | none => rw [candInsert, hs] at hx; exact absurd hx (by simp)
    | some p =>
      obtain ⟨tok, rest⟩ := p
      rw [candInsert, hs] at hx
      dsimp only at hx
      split at hx
      · simp only [List.mem_singleton] at hx
        subst hx
        intro hpin
        have hmem : '(' ∈ pyLower (stripChar '\'' (stripChar '"' tok)) := hpin
        obtain ⟨c, hc, heq⟩ := List.mem_map.mp hmem
        have hchars := searchP_token_chars hs c (mem_stripChar (mem_stripChar hc))
        have hcne : c ≠ '(' := by
          intro hcc
          subst hcc
          simpa using hchars.2
        exact toLower_ne_low c '(' (by decide) hcne heq
      · exact absurd hx (by simp)

/-- Witness for C5 at concrete FROM and INSERT INTO statements. -/
theorem claim_C5_witness :
    (("t" : String).data.head? ≠ some '(') ∧ ('(' ∉ ("b" : String).data) :=
  ⟨claim_C5.1 "FROM T".data "t" (by decide),
    claim_C5.2.1 "INSERT INTO B (X)".data "b" (by decide)⟩

/-- Counterexample for C5 as stated: from
`SELECT * FROM a JOIN (SELECT id FROM b) c ON x` the JOIN branch
captures the parenthesized subquery, so the returned table list
contains `"(select"`, a candidate opening with `(`. -/
theorem claim_C5_counterexample :
    "(select" ∈ _extract_table_names "SELECT * FROM a JOIN (SELECT id FROM b) c ON x" ∧
    ("(select" : String).data.head? = some '(' :=
  ⟨by decide, by decide⟩

/-- Claim C9: on every string input the classifier returns a value of
the fixed eight-value classification (falling back to OTHER), the
extractor returns a list of nonempty names (possibly the empty list),
and the normalizer returns a value; all three are total functions of
the raw text, so no diagnostic-internal failure can reach the hook's
caller. -/
theorem claim_C9 :
    ∀ s : String,
      _extract_query_type s ∈
        ["SELECT", "INSERT", "UPDATE", "DELETE", "CREATE", "DROP", "ALTER", "OTHER"] ∧
      (∀ x ∈ _extract_table_names s, x ≠ "") ∧
      ∃ r : String, normalizeSql s = r := by
  intro s
  refine ⟨?_, ?_, ⟨_, rfl⟩⟩
  · rw [_extract_query_type, classifyChars]
    split_ifs <;> simp
  · intro x hx
    obtain ⟨t, hne, rfl⟩ := mem_cand_lower (dedupAux_subset _ _ _ hx)
    intro hempty
    have : pyLower t = [] := congrArg String.data hempty
    rw [pyLower, List.map_eq_nil_iff] at this
    exact hne this

/-- Witness for C9 at a concrete statement and extracted name. -/
theorem claim_C9_witness :
    _extract_query_type "EXPLAIN SELECT 1" ∈
      ["SELECT", "INSERT", "UPDATE", "DELETE", "CREATE", "DROP", "ALTER", "OTHER"] ∧
    ("users" : String) ≠ "" :=
  ⟨(claim_C9 "EXPLAIN SELECT 1").1,
    (claim_C9 "SELECT * FROM users").2.1 "users" (by decide)⟩

theorem assocFind_nil {α : Type} (k : String) : assocFind ([] : List (String × α)) k = none := rfl

theorem assocFind_cons {α : Type} (p : String × α) (d : List (String × α)) (k : String) :
    assocFind (p :: d) k = if p.1 = k then some p.2 else assocFind d k := by
  by_cases h : p.1 = k
  · simp [assocFind, List.find?_cons_of_pos, h]
  · rw [assocFind, List.find?_cons_of_neg _ (by simpa using h), if_neg h, assocFind]

theorem assocPush_keys (d : List (String × List CapturedQuery)) (k : String) (q : CapturedQuery) :
    (assocPush d k q).map Prod.fst = d.map Prod.fst := by
  induction d with
  | nil => rfl
  | cons p d ih =>
    rw [show assocPush (p :: d) k q =
      (if p.1 = k then (p.1, p.2 ++ [q]) else p) :: assocPush d k q from rfl]
    rw [List.map_cons, List.map_cons, ih]
    congr 1
    by_cases h : p.1 = k
    · rw [if_pos h]
    · rw [if_neg h]

theorem assocFind_push (d : List (String × List CapturedQuery)) (k : String) (q : CapturedQuery)
    (k' : String) :
    assocFind (assocPush d k q) k' =
      if k' = k then (assocFind d k').map (fun l => l ++ [q]) else assocFind d k' := by
  induction d with
  | nil =>
    by_cases h : k' = k <;> simp [assocPush, assocFind_nil, h]
  | cons p d ih =>
    rw [show assocPush (p :: d) k q =
      (if p.1 = k then (p.1, p.2 ++ [q]) else p) :: assocPush d k q from rfl]
    by_cases hpk : p.1 = k
    · rw [if_pos hpk, assocFind_cons, assocFind_cons]
      dsimp only
      by_cases hpk' : p.1 = k'
      · rw [if_pos hpk', if_pos (hpk'.symm.trans hpk), if_pos hpk']
        rfl
      · rw [if_neg hpk', if_neg hpk', ih]
    · rw [if_neg hpk, assocFind_cons, assocFind_cons]
      by_cases hpk' : p.1 = k'
      · have hk : ¬ k' = k := fun hh => hpk (hpk'.trans hh)
        rw [if_pos hpk', if_pos hpk', if_neg hk]
      · rw [if_neg hpk', if_neg hpk', ih]

theorem assocFind_append_single {α : Type} (d : List (String × α)) (k : String) (v : α)
    (k' : String) :
    assocFind (d ++ [(k, v)]) k' =
      match assocFind d k' with
      | some l => some l
      | none => if k' = k then some v else none := by
  induction d with
  | nil =>
    simp only [List.nil_append, assocFind_nil]
    rw [assocFind_cons]
    dsimp only
    by_cases h : k' = k
    · simp [h]
    · rw [if_neg (fun hh => h hh.symm), if_neg h, assocFind_nil]
  | cons p d ih =>
    simp only [List.cons_append]
    rw [assocFind_cons, assocFind_cons]
    by_cases h : p.1 = k'
    · simp [h]
    · simp only [h, if_neg, if_false]
      exact ih

theorem assocFind_eq_none_iff {α : Type} (d : List (String × α)) (k : String) :
    assocFind d k = none ↔ k ∉ d.map Prod.fst := by
  induction d with
  | nil => simp [assocFind_nil]
  | cons p d ih =>
    rw [assocFind_cons, List.map_cons]
    by_cases h : p.1 = k
    · simp [h]
    · rw [if_neg h, ih]
      constructor
      · intro hk hmem
        rcases List.mem_cons.mp hmem with h1 | h2
        · exact h h1.symm
        · exact hk h2
      · intro hk hmem
        exact hk (List.mem_cons_of_mem _ hmem)

theorem mem_assocFind {α : Type} (d : List (String × α)) (hnd : (d.map Prod.fst).Nodup)
    (p : String × α) (hp : p ∈ d) : assocFind d p.1 = some p.2 := by
  induction d with
  | nil => exact absurd hp (by simp)
  | cons q d ih =>
    rw [List.map_cons, List.nodup_cons] at hnd
    rcases List.mem_cons.mp hp with rfl | hp2
    · rw [assocFind_cons, if_pos rfl]
    · rw [assocFind_cons]
      by_cases h : q.1 = p.1
      · exfalso
        exact hnd.1 (h ▸ List.mem_map_of_mem Prod.fst hp2)
      · rw [if_neg h]
        exact ih hnd.2 hp2

theorem sim_lookup :
    ∀ (qs : List CapturedQuery) (d : List (String × List CapturedQuery)) (k : String),
      assocFind (qs.foldl simStep d) k =
        match assocFind d k with
        | some l => some (l ++ qs.filter (fun q => q.get_base_query = k))
        | none =>
          if qs.filter (fun q => q.get_base_query = k) = [] then none
          else some (qs.filter (fun q => q.get_base_query = k)) := by
  intro qs
  induction qs with
  | nil =>
    intro d k
    simp only [List.foldl_nil, List.filter_nil]
    cases assocFind d k <;> simp
  | cons q qs ih =>
    intro d k
    rw [List.foldl_cons, ih, List.filter_cons]
    by_cases hqk : q.get_base_query = k
    · cases hfd : assocFind d k with
      | some l =>
        have hstep : simStep d q = assocPush d k q := by
          simp only [simStep, hqk, hfd]
        rw [hstep, assocFind_push, if_pos rfl, hfd]
        dsimp only
        simp [hqk, List.append_assoc]
      | none =>
        have hstep : simStep d q = d ++ [(k, [q])] := by
          simp only [simStep, hqk, hfd]
        rw [hstep, assocFind_append_single, hfd]
        dsimp only
        rw [if_pos rfl]
        simp [hqk]
    · have heq : assocFind (simStep d q) k = assocFind d k := by
        cases hfq : assocFind d (q.get_base_query) with
        | some l0 =>
          have hstep : simStep d q = assocPush d (q.get_base_query) q := by
            simp only [simStep, hfq]
          rw [hstep, assocFind_push, if_neg (fun hh => hqk hh.symm)]
        | none =>
          have hstep : simStep d q = d ++ [(q.get_base_query, [q])] := by
            simp only [simStep, hfq]
          rw [hstep, assocFind_append_single]
          cases assocFind d k with
          | some l => rfl
          | none =>
            dsimp only
            rw [if_neg (fun hh => hqk hh.symm)]
      rw [heq]
      simp [hqk]

theorem sim_keys_nodup :
    ∀ (qs : List CapturedQuery) (d : List (String × List CapturedQuery)),
      (d.map Prod.fst).Nodup → ((qs.foldl simStep d).map Prod.fst).Nodup := by
  intro qs
  induction qs with
  | nil => intro d h; exact h
  | cons q qs ih =>
    intro d h
    rw [List.foldl_cons]
    apply ih
    cases hfq : assocFind d (q.get_base_query) with
    | some l =>
      have hstep : simStep d q = assocPush d q.get_base_query q := by
        simp only [simStep, hfq]
      rw [hstep, assocPush_keys]
      exact h
    | none =>
      have hstep : simStep d q = d ++ [(q.get_base_query, [q])] := by
        simp only [simStep, hfq]
      rw [hstep, List.map_append]
      simp only [List.map_cons, List.map_nil]
      rw [List.nodup_append]
      refine ⟨h, List.nodup_singleton _, ?_⟩
      intro a ha hb
      rw [List.mem_singleton] at hb
      subst hb
      exact ((assocFind_eq_none_iff _ _).mp hfq) ha

/-- Claim C7: every reported similar-queries group has at least two
members, is exactly the in-order sublist of log entries whose
normalized shape equals the group key, and all its members share that
shape; on a log of five same-shape statements with different literals
it reports exactly one group of size five. -/
theorem claim_C7 :
    (∀ (c : QueryCollector), ∀ p ∈ c.get_similar_queries,
      2 ≤ p.2.length ∧ p.2 = c.queries.filter (fun q => q.get_base_query = p.1) ∧
      ∀ q ∈ p.2, q.get_base_query = p.1) ∧
    QueryCollector.get_similar_queries ⟨fiveSimilar, false⟩ =
      [("SELECT * FROM t WHERE id = ?", fiveSimilar)] := by
  refine ⟨?_, by decide⟩
  intro c p hp
  rw [QueryCollector.get_similar_queries] at hp
  obtain ⟨hdict, hlen⟩ := List.mem_filter.mp hp
  have hnd : ((c.queries.foldl simStep []).map Prod.fst).Nodup :=
    sim_keys_nodup c.queries [] (by simp)
  have hfind := mem_assocFind _ hnd p hdict
  rw [sim_lookup, assocFind_nil] at hfind
  dsimp only at hfind
  split at hfind
  · exact absurd hfind (by simp)
  · simp only [Option.some.injEq] at hfind
    have hp2 : p.2 = c.queries.filter (fun q => q.get_base_query = p.1) := hfind.symm
    refine ⟨?_, hp2, ?_⟩
    · have h1 : 1 < p.2.length := by simpa using hlen
      omega
    · intro q hq
      rw [hp2] at hq
      have := List.mem_filter.mp hq
      simpa using this.2

/-- Witness for C7 at the concrete five-entry log. -/
theorem claim_C7_witness :
    2 ≤ fiveSimilar.length ∧
    fiveSimilar = (QueryCollector.mk fiveSimilar false).queries.filter
      (fun q => q.get_base_query = "SELECT * FROM t WHERE id = ?") ∧
    ∀ q ∈ fiveSimilar, q.get_base_query = "SELECT * FROM t WHERE id = ?" :=
  claim_C7.1 (QueryCollector.mk fiveSimilar false)
    ("SELECT * FROM t WHERE id = ?", fiveSimilar) (by decide)

theorem dup_lookup :
    ∀ (qs : List CapturedQuery) (dups : List (String × List CapturedQuery))
      (seen : List (String × CapturedQuery)) (k : String),
      (∀ x, x ∈ dups.map Prod.fst → x ∈ seen.map Prod.fst) →
      assocFind (qs.foldl dupStep (dups, seen)).1 k =
        match assocFind dups k with
        | some l => some (l ++ qs.filter (fun q => stripKey q = k))
        | none =>
          match assocFind seen k with
          | some q0 =>
            if qs.filter (fun q => stripKey q = k) = [] then none
            else some (q0 :: qs.filter (fun q => stripKey q = k))
          | none =>
            if 2 ≤ (qs.filter (fun q => stripKey q = k)).length
            then some (qs.filter (fun q => stripKey q = k)) else none := by
  intro qs
  induction qs with
  | nil =>
    intro dups seen k _
    simp only [List.foldl_nil, List.filter_nil]
    cases assocFind dups k with
    | some l => simp
    | none => cases assocFind seen k <;> simp
  | cons q qs ih =>
    intro dups seen k hsub
    rw [List.foldl_cons, List.filter_cons]
    cases hseen : assocFind seen (stripKey q) with
    | some q0 =>
      cases hdup : assocFind dups (stripKey q) with
      | some l0 =>
        have hstep : dupStep (dups, seen) q = (assocPush dups (stripKey q) q, seen) := by
          simp only [dupStep, hseen, hdup]
        rw [hstep, ih _ _ k (by intro x hx; rw [assocPush_keys] at hx; exact hsub x hx)]
        by_cases hk : stripKey q = k
        · subst hk
          rw [assocFind_push, if_pos rfl, hdup, hseen]
          dsimp only
          simp [List.append_assoc]
        · rw [assocFind_push, if_neg (fun hh => hk hh.symm)]
          simp [hk]
      | none =>
        have hstep : dupStep (dups, seen) q = (dups ++ [(stripKey q, [q0, q])], seen) := by
          simp only [dupStep, hseen, hdup]
        rw [hstep]
        have hsub' : ∀ x, x ∈ (dups ++ [(stripKey q, [q0, q])]).map Prod.fst →
            x ∈ seen.map Prod.fst := by
          intro x hx
          rw [List.map_append, List.mem_append] at hx
          rcases hx with h1 | h2
          · exact hsub x h1
          · simp only [List.map_cons, List.map_nil, List.mem_singleton] at h2
            subst h2
            by_contra hnm
            rw [← assocFind_eq_none_iff] at hnm
            rw [hnm] at hseen
            exact absurd hseen (by simp)
        rw [ih _ _ k hsub', assocFind_append_single]
        by_cases hk : stripKey q = k
        · subst hk
          rw [hdup, hseen]
          dsimp only
          rw [if_pos rfl]
          dsimp only
          simp
        · cases hfd : assocFind dups k with
          | some l =>
            dsimp only
            simp [hk]
          | none =>
            dsimp only
            rw [if_neg (fun hh => hk hh.symm)]
            simp [hk]
    | none =>
      have hdup : assocFind dups (stripKey q) = none := by
        rw [assocFind_eq_none_iff]
        intro hmem
        exact (assocFind_eq_none_iff seen _).mp hseen (hsub _ hmem)
      have hstep : dupStep (dups, seen) q = (dups, seen ++ [(stripKey q, q)]) := by
        simp only [dupStep, hseen]
      rw [hstep]
      have hsub' : ∀ x, x ∈ dups.map Prod.fst →
          x ∈ (seen ++ [(stripKey q, q)]).map Prod.fst := by
        intro x hx
        rw [List.map_append, List.mem_append]
        exact Or.inl (hsub x hx)
      rw [ih _ _ k hsub', assocFind_append_single]
      by_cases hk : stripKey q = k
      · subst hk
        rw [hdup, hseen]
        dsimp only
        rw [if_pos rfl]
        dsimp only
        cases hfqs : qs.filter (fun r => stripKey r = stripKey q) with
        | nil => simp [hfqs]
        | cons x xs => simp [hfqs]
      · cases hfd : assocFind dups k with
        | some l =>
          dsimp only
          simp [hk]
        | none =>
          dsimp only
          rw [if_neg (fun hh => hk hh.symm)]
          cases hsk : assocFind seen k with
          | some q1 =>
            dsimp only
            simp [hk]
          | none =>
            dsimp only
            simp [hk]

theorem dupKeyOrder_congr :
    ∀ (qs : List CapturedQuery) (s1 s2 d1 d2 : List String),
      (∀ x, x ∈ s1 ↔ x ∈ s2) → (∀ x, x ∈ d1 ↔ x ∈ d2) →
      dupKeyOrder qs s1 d1 = dupKeyOrder qs s2 d2 := by
  intro qs
  induction qs with
  | nil => intro s1 s2 d1 d2 _ _; rfl
  | cons q qs ih =>
    intro s1 s2 d1 d2 hs hd
    simp only [dupKeyOrder]
    by_cases h1 : stripKey q ∈ s1
    · rw [if_pos h1, if_pos ((hs _).mp h1)]
      by_cases h2 : stripKey q ∈ d1
      · rw [if_pos h2, if_pos ((hd _).mp h2)]
        exact ih _ _ _ _ hs hd
      · rw [if_neg h2, if_neg (fun hh => h2 ((hd _).mpr hh))]
        exact congrArg _ (ih _ _ _ _ hs (by intro x; simp [List.mem_cons, hd x]))
    · rw [if_neg h1, if_neg (fun hh => h1 ((hs _).mpr hh))]
      exact ih _ _ _ _ (by intro x; simp [List.mem_cons, hs x]) hd

theorem dup_keys :
    ∀ (qs : List CapturedQuery) (dups : List (String × List CapturedQuery))
      (seen : List (String × CapturedQuery)),
      (qs.foldl dupStep (dups, seen)).1.map Prod.fst =
        dups.map Prod.fst ++ dupKeyOrder qs (seen.map Prod.fst) (dups.map Prod.fst) := by
  intro qs
  induction qs with
  | nil => intro dups seen; simp [dupKeyOrder]
  | cons q qs ih =>
    intro dups seen
    rw [List.foldl_cons]
    simp only [dupKeyOrder]
    cases hseen : assocFind seen (stripKey q) with
    | some q0 =>
      have hmemS : stripKey q ∈ seen.map Prod.fst := by
        by_contra hnm
        rw [← assocFind_eq_none_iff] at hnm
        rw [hnm] at hseen
        exact absurd hseen (by simp)
      rw [if_pos hmemS]
      cases hdup : assocFind dups (stripKey q) with
      | some l0 =>
        have hmemD : stripKey q ∈ dups.map Prod.fst := by
          by_contra hnm
          rw [← assocFind_eq_none_iff] at hnm
          rw [hnm] at hdup
          exact absurd hdup (by simp)
        rw [if_pos hmemD]
        have hstep : dupStep (dups, seen) q = (assocPush dups (stripKey q) q, seen) := by
          simp only [dupStep, hseen, hdup]
        rw [hstep, ih, assocPush_keys]
      | none =>
        have hmemD : stripKey q ∉ dups.map Prod.fst := (assocFind_eq_none_iff _ _).mp hdup
        rw [if_neg hmemD]
        have hstep : dupStep (dups, seen) q = (dups ++ [(stripKey q, [q0, q])], seen) := by
          simp only [dupStep, hseen, hdup]
        rw [hstep, ih, List.map_append]
        simp only [List.map_cons, List.map_nil]
        rw [List.append_assoc, List.singleton_append]
        congr 2
        apply dupKeyOrder_congr
        · intro x; exact Iff.rfl
        · intro x
          simp only [List.mem_append, List.mem_singleton, List.mem_cons, List.not_mem_nil,
            or_false]
          exact or_comm
    | none =>
      have hmemS : stripKey q ∉ seen.map Prod.fst := (assocFind_eq_none_iff _ _).mp hseen
      rw [if_neg hmemS]
      have hstep : dupStep (dups, seen) q = (dups, seen ++ [(stripKey q, q)]) := by
        simp only [dupStep, hseen]
      rw [hstep, ih]
      congr 1
      apply dupKeyOrder_congr
      · intro x
        rw [List.map_append]
        simp [or_comm]
      · intro x; exact Iff.rfl

/-- Claim C3 (amended): `get_duplicate_queries` groups by trimmed raw
SQL text (parameters are not part of the key), reports a key exactly
when its trimmed text occurs at least twice, each group being the
in-execution-order list of all entries with that text; the groups
appear in the order in which the distinct texts reached their second
occurrence in the log. -/
theorem claim_C3 :
    (∀ (c : QueryCollector) (k : String) (l : List CapturedQuery),
      assocFind c.get_duplicate_queries k = some l ↔
        (2 ≤ (c.queries.filter (fun q => stripKey q = k)).length ∧
          l = c.queries.filter (fun q => stripKey q = k))) ∧
    (∀ c : QueryCollector,
      c.get_duplicate_queries.map Prod.fst = dupKeyOrder c.queries [] []) := by
  constructor
  · intro c k l
    rw [QueryCollector.get_duplicate_queries,
      dup_lookup c.queries [] [] k (by simp)]
    simp only [assocFind_nil]
    split
    · rename_i hge
      constructor
      · intro h
        simp only [Option.some.injEq] at h
        exact ⟨hge, h.symm⟩
      · rintro ⟨-, rfl⟩
        rfl
    · rename_i hlt
      constructor
      · intro h
        exact absurd h (by simp)
      · rintro ⟨hge, -⟩
        exact absurd hge hlt
  · intro c
    rw [QueryCollector.get_duplicate_queries, dup_keys]
    rfl

/-- Counterexample for C3 as stated: on the log with trimmed texts
A, B, B, A the reported group order is B then A (order of second
occurrences), not the first-seen order A then B. -/
theorem claim_C3_counterexample :
    (QueryCollector.mk
        [mkQ "SELECT A", mkQ "SELECT B", mkQ "SELECT B", mkQ "SELECT A"]
        false).get_duplicate_queries.map Prod.fst = ["SELECT B", "SELECT A"] ∧
    firstSeenDupOrder [mkQ "SELECT A", mkQ "SELECT B", mkQ "SELECT B", mkQ "SELECT A"] =
      ["SELECT A", "SELECT B"] ∧
    (["SELECT B", "SELECT A"] : List String) ≠ ["SELECT A", "SELECT B"] :=
  ⟨by decide, by decide, by decide⟩

/-!
Lemmas about the normalizer matchers and the substitution scan,
towards the idempotence and shape-equality claims.
-/

theorem m1_none_head {c : Char} (h1 : ¬ c = 'I') (h2 : ¬ c = 'i') (t : List Char) :
    m1 (c :: t) = none := by
  cases t with
  | nil => rfl
  | cons b r =>
    simp only [m1]
    rw [if_neg]
    rintro ⟨hc, -⟩
    rcases hc with hc | hc
    · exact h1 hc
    · exact h2 hc

theorem m2_none_head {c : Char} (h : ¬ c = '=') (t : List Char) : m2 (c :: t) = none := by
  simp only [m2, if_neg h]

theorem m3_none_head {c : Char} (h : ¬ c = '=') (t : List Char) : m3 (c :: t) = none := by
  simp only [m3, if_neg h]

theorem m4_none_head {c : Char} (h : ¬ c = '=') (t : List Char) : m4 (c :: t) = none := by
  simp only [m4, if_neg h]

theorem m1_head {c : Char} {t r : List Char} (h : m1 (c :: t) = some r) :
    c = 'I' ∨ c = 'i' := by
  by_cases h1 : c = 'I'
  · exact Or.inl h1
  by_cases h2 : c = 'i'
  · exact Or.inr h2
  rw [m1_none_head h1 h2] at h
  exact absurd h (by simp)

theorem m2_head {c : Char} {t r : List Char} (h : m2 (c :: t) = some r) : c = '=' := by
  by_cases hc : c = '='
  · exact hc
  · rw [m2_none_head hc] at h
    exact absurd h (by simp)

theorem m3_head {c : Char} {t r : List Char} (h : m3 (c :: t) = some r) : c = '=' := by
  by_cases hc : c = '='
  · exact hc
  · rw [m3_none_head hc] at h
    exact absurd h (by simp)

theorem m4_head {c : Char} {t r : List Char} (h : m4 (c :: t) = some r) : c = '=' := by
  by_cases hc : c = '='
  · exact hc
  · rw [m4_none_head hc] at h
    exact absurd h (by simp)

theorem m1_some_paren : ∀ {l r : List Char}, m1 l = some r → ')' ∈ l := by
  intro l r h
  match l with
  | [] => exact absurd h (by simp [m1])
  | [a] => exact absurd h (by simp [m1])
  | a :: b :: t =>
    simp only [m1] at h
    split at h
    · split at h
      · rename_i r3 heq3
        split at h
        · exact absurd h (by simp)
        · split at h
          · rename_i r4 heq4
            have hp : ')' ∈ r3.drop (r3.takeWhile (fun d => d ≠ ')')).length := by
              rw [heq4]; exact List.mem_cons_self _ _
            have h1 : ')' ∈ r3 := (List.drop_suffix _ _).sublist.subset hp
            have h2 : ')' ∈ t.dropWhile isPyWs := by
              rw [heq3]; exact List.mem_cons_of_mem _ h1
            have h3 : ')' ∈ t := (List.dropWhile_suffix _).sublist.subset h2
            exact List.mem_cons_of_mem _ (List.mem_cons_of_mem _ h3)
          · exact absurd h (by simp)
      · exact absurd h (by simp)
    · exact absurd h (by simp)

theorem m2_some_pct : ∀ {l r : List Char}, m2 l = some r → '%' ∈ l := by
  intro l r h
  cases l with
  | nil => exact absurd h (by simp [m2])
  | cons c rt =>
    simp only [m2] at h
    split at h
    · split at h
      · rename_i r3 heq3
        have h1 : '%' ∈ rt.dropWhile isPyWs := by
          rw [heq3]; exact List.mem_cons_self _ _
        exact List.mem_cons_of_mem _ ((List.dropWhile_suffix _).sublist.subset h1)
      · exact absurd h (by simp)
    · exact absurd h (by simp)

theorem m3_some_digit : ∀ {l r : List Char}, m3 l = some r → ∃ d ∈ l, d.isDigit = true := by
  intro l r h
  cases l with
  | nil => exact absurd h (by simp [m3])
  | cons c rt =>
    simp only [m3] at h
    split at h
    · split at h
      · exact absurd h (by simp)
      · rename_i hne
        cases htw : (rt.dropWhile isPyWs).takeWhile Char.isDigit with
        | nil => rw [htw] at hne; simp at hne
        | cons d ds =>
          have hd : d ∈ (rt.dropWhile isPyWs).takeWhile Char.isDigit := by
            rw [htw]; exact List.mem_cons_self _ _
          have hdig := List.mem_takeWhile_imp hd
          have h1 : d ∈ rt.dropWhile isPyWs :=
            ( List.takeWhile_prefix _).sublist.subset hd
          have h2 : d ∈ rt := (List.dropWhile_suffix _).sublist.subset h1
          exact ⟨d, List.mem_cons_of_mem _ h2, hdig⟩
    · exact absurd h (by simp)

theorem m4_some_quote : ∀ {l r : List Char}, m4 l = some r → '\'' ∈ l := by
  intro l r h
  cases l with
  | nil => exact absurd h (by simp [m4])
  | cons c rt =>
    simp only [m4] at h
    split at h
    · split at h
      · rename_i r3 heq3
        have h1 : '\'' ∈ rt.dropWhile isPyWs := by
          rw [heq3]; exact List.mem_cons_self _ _
        exact List.mem_cons_of_mem _ ((List.dropWhile_suffix _).sublist.subset h1)
      · exact absurd h (by simp)
    · exact absurd h (by simp)

theorem m1_suffix : ∀ {l r : List Char}, m1 l = some r → r <:+ l := by
  intro l r h
  match l with
  | [] => exact absurd h (by simp [m1])
  | [a] => exact absurd h (by simp [m1])
  | a :: b :: t =>
    simp only [m1] at h
    split at h
    · split at h
      · rename_i r3 heq3
        split at h
        · exact absurd h (by simp)
        · split at h
          · rename_i r4 heq4
            simp only [Option.some.injEq] at h
            rw [← h]
            have h1 : ')' :: r4 <:+ r3 := by
              rw [← heq4]; exact List.drop_suffix _ _
            have h2 : r4 <:+ r3 := (List.suffix_cons ')' r4).trans h1
            have h3 : r3 <:+ t.dropWhile isPyWs := by
              rw [heq3]; exact List.suffix_cons _ _
            have h4 : r4 <:+ t := (h2.trans h3).trans (List.dropWhile_suffix _)
            exact (h4.trans (List.suffix_cons b t)).trans (List.suffix_cons a (b :: t))
          · exact absurd h (by simp)
      · exact absurd h (by simp)
    · exact absurd h (by simp)

theorem m2_suffix : ∀ {l r : List Char}, m2 l = some r → r <:+ l := by
  intro l r h
  cases l with
  | nil => exact absurd h (by simp [m2])
  | cons c rt =>
    simp only [m2] at h
    split at h
    · split at h
      · rename_i r3 heq3
        simp only [Option.some.injEq] at h
        rw [← h]
        have h1 : r3 <:+ rt.dropWhile isPyWs := by
          rw [heq3]
          exact (List.suffix_cons 's' r3).trans (List.suffix_cons '%' ('s' :: r3))
        exact (h1.trans (List.dropWhile_suffix _)).trans (List.suffix_cons c rt)
      · exact absurd h (by simp)
    · exact absurd h (by simp)

theorem m3_suffix : ∀ {l r : List Char}, m3 l = some r → r <:+ l := by
  intro l r h
  cases l with
  | nil => exact absurd h (by simp [m3])
  | cons c rt =>
    simp only [m3] at h
    split at h
    · split at h
      · exact absurd h (by simp)
      · simp only [Option.some.injEq] at h
        rw [← h]
        exact ((List.drop_suffix _ _).trans (List.dropWhile_suffix _)).trans
          (List.suffix_cons c rt)
    · exact absurd h (by simp)

theorem m4_suffix : ∀ {l r : List Char}, m4 l = some r → r <:+ l := by
  intro l r h
  cases l with
  | nil => exact absurd h (by simp [m4])
  | cons c rt =>
    simp only [m4] at h
    split at h
    · split at h
      · rename_i r3 heq3
        split at h
        · exact absurd h (by simp)
        · split at h
          · rename_i r4 heq4
            simp only [Option.some.injEq] at h
            rw [← h]
            have h2 : '\'' :: r4 <:+ r3 := by
              rw [← heq4]; exact List.drop_suffix _ _
            have h3 : r4 <:+ r3 := (List.suffix_cons '\'' r4).trans h2
            have h4 : r3 <:+ rt.dropWhile isPyWs := by
              rw [heq3]; exact List.suffix_cons _ _
            exact ((h3.trans h4).trans (List.dropWhile_suffix _)).trans (List.suffix_cons c rt)
          · exact absurd h (by simp)
      · exact absurd h (by simp)
    · exact absurd h (by simp)

theorem noM_nil {m : List Char → Option (List Char)} (h : m [] = none) : NoM m [] := by
  intro u hu
  rw [List.suffix_nil.mp hu]
  exact h

theorem noM_cons {m : List Char → Option (List Char)} {c : Char} {t : List Char}
    (h1 : m (c :: t) = none) (h2 : NoM m t) : NoM m (c :: t) := by
  intro u hu
  rcases List.suffix_cons_iff.mp hu with rfl | hu2
  · exact h1
  · exact h2 u hu2

theorem noM_suffix {m : List Char → Option (List Char)} {l u : List Char}
    (h : NoM m l) (hu : u <:+ l) : NoM m u :=
  fun v hv => h v (hv.trans hu)

theorem noM_head {m : List Char → Option (List Char)} {c : Char} {t : List Char}
    (h : NoM m (c :: t)) : m (c :: t) = none :=
  h _ (List.suffix_refl _)

theorem noM_tail {m : List Char → Option (List Char)} {c : Char} {t : List Char}
    (h : NoM m (c :: t)) : NoM m t :=
  noM_suffix h (List.suffix_cons c t)

theorem noM_of_not_mem {m : List Char → Option (List Char)} {γ : Char}
    (hγ : ∀ {u r : List Char}, m u = some r → γ ∈ u) {l : List Char} (h : γ ∉ l) :
    NoM m l := by
  intro u hu
  cases hmu : m u with
  | none => rfl
  | some r => exact absurd (hu.sublist.subset (hγ hmu)) h

theorem subRepl_id {m : List Char → Option (List Char)} {repl : List Char}
    (hm : ∀ l r, m l = some r → r.length < l.length) :
    ∀ l : List Char, NoM m l → subRepl m repl l = l := by
  intro l
  induction l with
  | nil => intro _; exact subRepl_nil m repl
  | cons c t ih =>
    intro h
    rw [subRepl_cons m repl hm, noM_head h]
    dsimp only
    rw [ih (noM_tail h)]

theorem subRepl_ne_nil {m : List Char → Option (List Char)} {repl : List Char}
    (hm : ∀ l r, m l = some r → r.length < l.length) (hrepl : repl ≠ [])
    {l : List Char} (hl : l ≠ []) : subRepl m repl l ≠ [] := by
  cases l with
  | nil => exact absurd rfl hl
  | cons c t =>
    rw [subRepl_cons m repl hm]
    cases m (c :: t) with
    | some rest =>
      dsimp only
      exact fun hh => hrepl (List.append_eq_nil.mp hh).1
    | none => simp

theorem head?_subRepl {m : List Char → Option (List Char)} {repl : List Char}
    (hm : ∀ l r, m l = some r → r.length < l.length) (hrepl : repl ≠ [])
    (l : List Char) :
    (subRepl m repl l).head? = l.head? ∨ (subRepl m repl l).head? = repl.head? := by
  cases l with
  | nil => exact Or.inl rfl
  | cons c t =>
    rw [subRepl_cons m repl hm]
    cases m (c :: t) with
    | some rest =>
      dsimp only
      cases repl with
      | nil => exact absurd rfl hrepl
      | cons r0 rs => exact Or.inr rfl
    | none => exact Or.inl rfl

theorem mem_subRepl {m : List Char → Option (List Char)} {repl : List Char}
    (hm : ∀ l r, m l = some r → r.length < l.length)
    (hsuf : ∀ {l r : List Char}, m l = some r → r <:+ l) :
    ∀ (n : Nat) (l : List Char), l.length ≤ n →
      ∀ x, x ∈ subRepl m repl l → x ∈ repl ∨ x ∈ l := by
  intro n
  induction n with
  | zero =>
    intro l hl x hx
    rw [List.length_eq_zero.mp (Nat.le_zero.mp hl)] at hx ⊢
    rw [subRepl_nil] at hx
    exact absurd hx (by simp)
  | succ n ih =>
    intro l hl x hx
    cases l with
    | nil =>
      rw [subRepl_nil] at hx
      exact absurd hx (by simp)
    | cons c t =>
      rw [subRepl_cons m repl hm] at hx
      cases hM : m (c :: t) with
      | some rest =>
        rw [hM] at hx
        dsimp only at hx
        rcases List.mem_append.mp hx with h1 | h1
        · exact Or.inl h1
        · have hrl := hm _ _ hM
          simp only [List.length_cons] at hl hrl
          rcases ih rest (by omega) x h1 with h2 | h2
          · exact Or.inl h2
          · exact Or.inr ((hsuf hM).sublist.subset h2)
      | none =>
        rw [hM] at hx
        dsimp only at hx
        rcases List.mem_cons.mp hx with rfl | h1
        · exact Or.inr (List.mem_cons_self _ _)
        · simp only [List.length_cons] at hl
          rcases ih t (by omega) x h1 with h2 | h2
          · exact Or.inl h2
          · exact Or.inr (List.mem_cons_of_mem _ h2)

theorem dropWhile_ws_subRepl {m : List Char → Option (List Char)} {repl : List Char}
    (hm : ∀ l r, m l = some r → r.length < l.length)
    (hstart : ∀ {c : Char} {t r : List Char}, m (c :: t) = some r → isPyWs c = false)
    (hrepl : repl ≠ [])
    (hrh : ∀ x, repl.head? = some x → isPyWs x = false) :
    ∀ (n : Nat) (l : List Char), l.length ≤ n →
      (subRepl m repl l).dropWhile isPyWs = subRepl m repl (l.dropWhile isPyWs) := by
  intro n
  induction n with
  | zero =>
    intro l hl
    rw [List.length_eq_zero.mp (Nat.le_zero.mp hl)]
    rfl
  | succ n ih =>
    intro l hl
    cases l with
    | nil => rfl
    | cons c t =>
      simp only [List.length_cons] at hl
      cases hM : m (c :: t) with
      | some rest =>
        have hcw := hstart hM
        rw [List.dropWhile_cons_of_neg (by simp [hcw])]
        rw [subRepl_cons m repl hm, hM]
        dsimp only
        cases repl with
        | nil => exact absurd rfl hrepl
        | cons r0 rs =>
          have hr0 : isPyWs r0 = false := hrh r0 rfl
          rw [List.cons_append, List.dropWhile_cons_of_neg (by simp [hr0])]
      | none =>
        rw [subRepl_cons m repl hm, hM]
        dsimp only
        by_cases hcw : isPyWs c = true
        · rw [List.dropWhile_cons_of_pos hcw, List.dropWhile_cons_of_pos hcw]
          exact ih t (by omega)
        · rw [List.dropWhile_cons_of_neg hcw, List.dropWhile_cons_of_neg hcw]
          rw [subRepl_cons m repl hm, hM]

theorem getLast?_append_right {l r : List Char} (hr : r ≠ []) :
    (l ++ r).getLast? = r.getLast? := by
  rw [List.getLast?_append]
  cases hg : r.getLast? with
  | some x => rfl
  | none =>
    exfalso
    cases r with
    | nil => exact hr rfl
    | cons a as =>
      have : (a :: as).getLast? = some ((a :: as).getLast (by simp)) := by
        rw [List.getLast?_eq_getLast]
      rw [this] at hg
      exact absurd hg (by simp)

theorem getLast?_suffix {u l : List Char} (hu : u <:+ l) (hne : u ≠ []) :
    u.getLast? = l.getLast? := by
  obtain ⟨pre, rfl⟩ := hu
  rw [getLast?_append_right hne]

theorem getLast?_subRepl {m : List Char → Option (List Char)} {repl : List Char}
    (hm : ∀ l r, m l = some r → r.length < l.length)
    (hsuf : ∀ {l r : List Char}, m l = some r → r <:+ l)
    (hrepl : repl ≠ []) :
    ∀ (n : Nat) (l : List Char), l.length ≤ n →
      (subRepl m repl l).getLast? = l.getLast? ∨
        (subRepl m repl l).getLast? = repl.getLast? := by
  intro n
  induction n with
  | zero =>
    intro l hl
    rw [List.length_eq_zero.mp (Nat.le_zero.mp hl)]
    exact Or.inl rfl
  | succ n ih =>
    intro l hl
    cases l with
    | nil => exact Or.inl rfl
    | cons c t =>
      simp only [List.length_cons] at hl
      rw [subRepl_cons m repl hm]
      cases hM : m (c :: t) with
      | some rest =>
        dsimp only
        by_cases hrest : rest = []
        · subst hrest
          rw [subRepl_nil, List.append_nil]
          exact Or.inr rfl
        · have hout : subRepl m repl rest ≠ [] := subRepl_ne_nil hm hrepl hrest
          rw [getLast?_append_right hout]
          have hlt := hm _ _ hM
          simp only [List.length_cons] at hlt
          rcases ih rest (by omega) with h1 | h1
          · exact Or.inl (h1.trans (getLast?_suffix (hsuf hM) hrest))
          · exact Or.inr h1
      | none =>
        dsimp only
        cases t with
        | nil =>
          rw [subRepl_nil]
          exact Or.inl rfl
        | cons d ts =>
          have hout : subRepl m repl (d :: ts) ≠ [] := subRepl_ne_nil hm hrepl (by simp)
          have hc : (c :: subRepl m repl (d :: ts)).getLast? =
              (subRepl m repl (d :: ts)).getLast? := by
            cases hsp : subRepl m repl (d :: ts) with
            | nil => exact absurd hsp hout
            | cons x xs => simp [List.getLast?_cons_cons]
          rw [hc]
          rcases ih (d :: ts) (by omega) with h1 | h1
          · exact Or.inl (h1.trans (by simp [List.getLast?_cons_cons]))
          · exact Or.inr h1

theorem selfM1_cons {c : Char} {t : List Char}
    (h1 : ∀ r, m1 (c :: t) = some r → c :: t = inRepl ++ r) (h2 : SelfM1 t) :
    SelfM1 (c :: t) := by
  intro u r hu hm
  rcases List.suffix_cons_iff.mp hu with rfl | hu2
  · exact h1 r hm
  · exact h2 u r hu2 hm

theorem selfM1_suffix {l u : List Char} (h : SelfM1 l) (hu : u <:+ l) : SelfM1 u :=
  fun v r hv hm => h v r (hv.trans hu) hm

theorem selfM1_of_noM {l : List Char} (h : NoM m1 l) : SelfM1 l := by
  intro u r hu hm
  rw [h u hu] at hm
  exact absurd hm (by simp)

theorem subRepl_selfM1_id :
    ∀ (n : Nat) (l : List Char), l.length ≤ n → SelfM1 l → subRepl m1 inRepl l = l := by
  intro n
  induction n with
  | zero =>
    intro l hl _
    rw [List.length_eq_zero.mp (Nat.le_zero.mp hl)]
    rfl
  | succ n ih =>
    intro l hl hs
    cases l with
    | nil => rfl
    | cons c t =>
      simp only [List.length_cons] at hl
      rw [subRepl_cons m1 inRepl m1_lt]
      cases hM : m1 (c :: t) with
      | some r =>
        dsimp only
        have hspan := hs _ _ (List.suffix_refl _) hM
        have hlt := m1_lt _ _ hM
        simp only [List.length_cons] at hlt
        rw [ih r (by omega) (selfM1_suffix hs (m1_suffix hM))]
        exact hspan.symm
      | none =>
        dsimp only
        rw [ih t (by omega) (selfM1_suffix hs (List.suffix_cons c t))]

theorem dropWhile_head_not {p : Char → Bool} :
    ∀ {l t : List Char} {c : Char}, l.dropWhile p = c :: t → p c = false := by
  intro l
  induction l with
  | nil => intro t c h; exact absurd h (by simp)
  | cons a l ih =>
    intro t c h
    by_cases hp : p a
    · rw [List.dropWhile_cons_of_pos hp] at h
      exact ih h
    · rw [List.dropWhile_cons_of_neg hp] at h
      cases h
      simpa using hp

theorem splitFuel_words :
    ∀ (fuel : Nat) (l : List Char), ∀ w ∈ splitFuel fuel l,
      w ≠ [] ∧ ∀ c ∈ w, isPyWs c = false := by
  intro fuel
  induction fuel with
  | zero => intro l w hw; exact absurd hw (by simp [splitFuel])
  | succ fuel ih =>
    intro l w hw
    simp only [splitFuel] at hw
    revert hw
    cases hD : l.dropWhile isPyWs with
    | nil => intro hw; exact absurd hw (by simp)
    | cons c t =>
      intro hw
      rcases List.mem_cons.mp hw with rfl | hw2
      · refine ⟨by simp, ?_⟩
        intro x hx
        rcases List.mem_cons.mp hx with rfl | hx2
        · exact dropWhile_head_not hD
        · have := List.mem_takeWhile_imp hx2
          simpa using this
      · exact ih _ w hw2

theorem join_ne_nil {w : List Char} (hw : w ≠ []) (ws : List (List Char)) :
    joinWithSpace (w :: ws) ≠ [] := by
  cases ws with
  | nil => exact hw
  | cons w2 ws2 =>
    rw [joinWithSpace]
    intro hh
    exact hw (List.append_eq_nil.mp hh).1

theorem join_head {w : List Char} (hw : w ≠ []) (ws : List (List Char)) :
    (joinWithSpace (w :: ws)).head? = w.head? := by
  cases ws with
  | nil => rfl
  | cons w2 ws2 =>
    rw [joinWithSpace]
    cases w with
    | nil => exact absurd rfl hw
    | cons c t => rfl

theorem noDbl_nospace {w : List Char} (h : ∀ c ∈ w, isPyWs c = false) : noDbl w := by
  induction w with
  | nil => exact List.chain'_nil
  | cons a w ih =>
    rw [noDbl, List.chain'_cons']
    constructor
    · intro y _
      rintro ⟨ha, -⟩
      have := h a (List.mem_cons_self _ _)
      rw [ha] at this
      exact absurd this (by simp [isPyWs])
    · exact ih (fun c hc => h c (List.mem_cons_of_mem _ hc))

theorem cws_join :
    ∀ ws : List (List Char),
      (∀ w ∈ ws, w ≠ [] ∧ ∀ c ∈ w, isPyWs c = false) → Cws (joinWithSpace ws) := by
  intro ws
  induction ws with
  | nil =>
    intro _
    exact ⟨fun c hc => absurd hc (List.not_mem_nil c), List.chain'_nil, by decide, by decide⟩
  | cons w ws ih =>
    intro h
    obtain ⟨hwne, hwc⟩ := h w (List.mem_cons_self _ _)
    cases ws with
    | nil =>
      refine ⟨?_, noDbl_nospace hwc, ?_, ?_⟩
      · intro c hc hws
        rw [hwc c hc] at hws
        exact absurd hws (by simp)
      · show w.head? ≠ some ' '
        cases w with
        | nil => simp
        | cons c t =>
          have := hwc c (List.mem_cons_self _ _)
          simp only [List.head?_cons]
          intro hh
          rw [Option.some.injEq] at hh
          rw [hh] at this
          exact absurd this (by simp [isPyWs])
      · show w.getLast? ≠ some ' '
        intro hh
        have hmem : ' ' ∈ w := by
          cases w with
          | nil => simp at hh
          | cons c t =>
            have : (c :: t).getLast (by simp) ∈ c :: t := List.getLast_mem _
            rw [List.getLast?_eq_getLast _ (by simp)] at hh
            rw [Option.some.injEq] at hh
            exact hh ▸ this
        have := hwc ' ' hmem
        exact absurd this (by simp [isPyWs])
    | cons w2 ws2 =>
      have hrest := ih (fun v hv => h v (List.mem_cons_of_mem _ hv))
      obtain ⟨h2ne, -⟩ := h w2 (List.mem_cons_of_mem _ (List.mem_cons_self _ _))
      have hJne : joinWithSpace (w2 :: ws2) ≠ [] := join_ne_nil h2ne ws2
      rw [joinWithSpace]
      obtain ⟨hr_ws, hr_chain, hr_head, hr_last⟩ := hrest
      refine ⟨?_, ?_, ?_, ?_⟩
      · intro c hc hws
        rcases List.mem_append.mp hc with h1 | h1
        · rw [hwc c h1] at hws
          exact absurd hws (by simp)
        · rcases List.mem_cons.mp h1 with rfl | h2
          · rfl
          · exact hr_ws c h2 hws
      · rw [noDbl, List.chain'_append]
        refine ⟨noDbl_nospace hwc, ?_, ?_⟩
        · rw [List.chain'_cons']
          constructor
          · intro y hy
            rintro ⟨-, hy2⟩
            rw [join_head h2ne ws2] at hy
            apply hr_head
            rw [join_head h2ne ws2]
            rw [hy2] at hy
            exact hy
          · exact hr_chain
        · intro x hx y hy
          rintro ⟨hx2, -⟩
          have hxw : x ∈ w := by
            cases w with
            | nil => simp at hx
            | cons c t =>
              rw [List.getLast?_eq_getLast _ (by simp)] at hx
              rw [Option.mem_def, Option.some.injEq] at hx
              rw [← hx]
              exact List.getLast_mem _
          have := hwc x hxw
          rw [hx2] at this
          exact absurd this (by simp [isPyWs])
      · show (w ++ ' ' :: joinWithSpace (w2 :: ws2)).head? ≠ some ' '
        cases w with
        | nil => exact absurd rfl hwne
        | cons c t =>
          simp only [List.cons_append, List.head?_cons]
          intro hh
          rw [Option.some.injEq] at hh
          have := hwc c (List.mem_cons_self _ _)
          rw [hh] at this
          exact absurd this (by simp [isPyWs])
      · rw [getLast?_append_right (by simp)]
        cases hsp : joinWithSpace (w2 :: ws2) with
        | nil => exact absurd hsp hJne
        | cons x xs =>
          rw [List.getLast?_cons_cons]
          rw [hsp] at hr_last
          exact hr_last

theorem cws_collapse (l : List Char) : Cws (collapseWs l) :=
  cws_join _ (splitFuel_words _ _)

theorem join_cons_ne {w : List Char} {ws : List (List Char)} (h : ws ≠ []) :
    joinWithSpace (w :: ws) = w ++ ' ' :: joinWithSpace ws := by
  cases ws with
  | nil => exact absurd rfl h
  | cons w2 ws2 => rfl

theorem pySplitWords_dropWhile_eq {l1 l2 : List Char}
    (h : l1.dropWhile isPyWs = l2.dropWhile isPyWs) :
    pySplitWords l1 = pySplitWords l2 := by
  rw [pySplitWords_eq, pySplitWords_eq, h]

theorem collapseWs_id_aux :
    ∀ (n : Nat) (l : List Char), l.length ≤ n → Cws l → collapseWs l = l := by
  intro n
  induction n with
  | zero =>
    intro l hlen _
    have : l = [] := List.length_eq_zero.mp (Nat.le_zero.mp hlen)
    subst this
    rfl
  | succ n ih =>
    intro l hlen hc
    obtain ⟨hws, hnd, hhd, hlast⟩ := hc
    cases l with
    | nil => rfl
    | cons c t =>
      have hcns : c ≠ ' ' := by
        intro hh
        exact hhd (by rw [hh]; rfl)
      have hcnw : isPyWs c = false := by
        cases hcw : isPyWs c with
        | false => rfl
        | true => exact absurd (hws c (List.mem_cons_self _ _) hcw) hcns
      have hD : (c :: t).dropWhile isPyWs = c :: t :=
        List.dropWhile_cons_of_neg (by simp [hcnw])
      rw [collapseWs, pySplitWords_eq, hD]
      dsimp only
      cases hrest : t.dropWhile (fun d => !(isPyWs d)) with
      | nil =>
        have htw : t.takeWhile (fun d => !(isPyWs d)) = t := by
          have := List.takeWhile_append_dropWhile (p := fun d => !(isPyWs d)) (l := t)
          rw [hrest, List.append_nil] at this
          exact this
        rw [htw]
        rfl
      | cons d r =>
        have hrsuf_t : d :: r <:+ t := hrest ▸ List.dropWhile_suffix _
        have hrsuf : d :: r <:+ c :: t := hrsuf_t.trans (List.suffix_cons c t)
        have hdw : isPyWs d = true := by
          have := dropWhile_head_not hrest
          simpa using this
        have hdsp : d = ' ' := hws d (hrsuf.subset (List.mem_cons_self _ _)) hdw
        cases r with
        | nil =>
          exfalso
          apply hlast
          rw [← getLast?_suffix hrsuf (by simp)]
          rw [hdsp]
          rfl
        | cons e r2 =>
          have hch : List.Chain' (fun a b => ¬(a = ' ' ∧ b = ' ')) (d :: e :: r2) :=
            List.Chain'.suffix hnd hrsuf
          have hens : e ≠ ' ' := by
            intro hh
            rw [List.chain'_cons] at hch
            exact hch.1 ⟨hdsp, hh⟩
          have hmsuf : e :: r2 <:+ c :: t :=
            (List.suffix_cons d (e :: r2)).trans hrsuf
          have henw : isPyWs e = false := by
            cases hew : isPyWs e with
            | false => rfl
            | true => exact absurd (hws e (hmsuf.subset (List.mem_cons_self _ _)) hew) hens
          have hrw : pySplitWords (d :: e :: r2) = pySplitWords (e :: r2) := by
            apply pySplitWords_dropWhile_eq
            rw [hdsp]
            rw [List.dropWhile_cons_of_pos (by decide)]
          have hlen2 : (e :: r2).length ≤ n := by
            have h1 : (d :: e :: r2).length ≤ t.length := hrsuf_t.sublist.length_le
            simp only [List.length_cons] at h1 hlen ⊢
            omega
          have hcm : Cws (e :: r2) := by
            refine ⟨?_, ?_, ?_, ?_⟩
            · intro x hx hxw
              exact hws x (hmsuf.subset hx) hxw
            · exact List.Chain'.suffix hnd hmsuf
            · intro hh
              rw [List.head?_cons, Option.some.injEq] at hh
              exact hens hh
            · rw [getLast?_suffix hmsuf (by simp)]
              exact hlast
          have hIH : joinWithSpace (pySplitWords (e :: r2)) = e :: r2 := ih _ hlen2 hcm
          have hsplit_ne : pySplitWords (e :: r2) ≠ [] := by
            rw [pySplitWords_eq]
            rw [List.dropWhile_cons_of_neg (by simp [henw])]
            simp
          rw [hrw, join_cons_ne hsplit_ne, hIH]
          have ht : t.takeWhile (fun d => !(isPyWs d)) ++ ' ' :: e :: r2 = t := by
            have := List.takeWhile_append_dropWhile (p := fun d => !(isPyWs d)) (l := t)
            rw [hrest, hdsp] at this
            exact this
          rw [List.cons_append, ht]

theorem collapseWs_id {l : List Char} (h : Cws l) : collapseWs l = l :=
  collapseWs_id_aux l.length l (Nat.le_refl _) h

theorem collapseWs_idem (l : List Char) : collapseWs (collapseWs l) = collapseWs l :=
  collapseWs_id (cws_collapse l)

theorem drop_len_takeWhile (p : Char → Bool) :
    ∀ l : List Char, l.drop (l.takeWhile p).length = l.dropWhile p := by
  intro l
  induction l with
  | nil => rfl
  | cons c t ih =>
    by_cases hp : p c
    · rw [List.takeWhile_cons_of_pos hp, List.dropWhile_cons_of_pos hp, List.length_cons,
        List.drop_succ_cons]
      exact ih
    · rw [List.takeWhile_cons_of_neg hp, List.dropWhile_cons_of_neg hp]
      rfl

theorem inRepl_append (X : List Char) :
    inRepl ++ X = 'I' :: 'N' :: ' ' :: '(' :: '?' :: ')' :: X := rfl

theorem eqRepl_append (X : List Char) : eqRepl ++ X = '=' :: ' ' :: '?' :: X := rfl

theorem m1_inRepl (X : List Char) : m1 (inRepl ++ X) = some X := rfl

theorem m2_block (X : List Char) : m2 ('=' :: ' ' :: '?' :: X) = none := rfl

theorem m3_block (X : List Char) : m3 ('=' :: ' ' :: '?' :: X) = none := rfl

theorem m4_block (X : List Char) : m4 ('=' :: ' ' :: '?' :: X) = none := rfl

theorem matcher_none_of_heads {mI : List Char → Option (List Char)}
    (hheads : ∀ {c : Char} {t r : List Char}, mI (c :: t) = some r → c = 'I' ∨ c = 'i' ∨ c = '=')
    {c : Char} (h1 : ¬ c = 'I') (h2 : ¬ c = 'i') (h3 : ¬ c = '=') (t : List Char) :
    mI (c :: t) = none := by
  cases h : mI (c :: t) with
  | none => rfl
  | some r =>
    rcases hheads h with hc | hc | hc
    · exact absurd hc h1
    · exact absurd hc h2
    · exact absurd hc h3

theorem matcher_none_of_head_eq {mI : List Char → Option (List Char)}
    (hhead : ∀ {c : Char} {t r : List Char}, mI (c :: t) = some r → c = '=')
    {c : Char} (h : ¬ c = '=') (t : List Char) : mI (c :: t) = none := by
  cases hm : mI (c :: t) with
  | none => rfl
  | some r => exact absurd (hhead hm) h

theorem takeWhile_all_of_not_mem {γ : Char} {w : List Char} (h : γ ∉ w) :
    w.takeWhile (fun d => d ≠ γ) = w :=
  List.takeWhile_eq_self_iff.mpr
    (fun x hx => decide_eq_true (fun he => h (he ▸ hx)))

theorem dropWhile_nil_of_not_mem {γ : Char} {w : List Char} (h : γ ∉ w) :
    w.dropWhile (fun d => d ≠ γ) = [] :=
  List.dropWhile_eq_nil_iff.mpr
    (fun x hx => decide_eq_true (fun he => h (he ▸ hx)))

theorem dropWhile_ne_head {γ : Char} {w ys : List Char} {y : Char}
    (h : w.dropWhile (fun d => d ≠ γ) = y :: ys) : y = γ := by
  have := dropWhile_head_not h
  simpa using this

theorem m1_fail_transfer {mI : List Char → Option (List Char)} {replI : List Char}
    (hlt : ∀ l r, mI l = some r → r.length < l.length)
    (hstart : ∀ {c : Char} {t r : List Char}, mI (c :: t) = some r → isPyWs c = false)
    (hheads : ∀ {c : Char} {t r : List Char}, mI (c :: t) = some r → c = 'I' ∨ c = 'i' ∨ c = '=')
    (hrepl : replI ≠ [])
    (hRhead : replI.head? = some 'I' ∨ replI.head? = some '=')
    (hA3 : ∀ {v : List Char}, ')' ∉ v → ')' ∉ subRepl mI replI v)
    {c : Char} {t : List Char} (hfail : m1 (c :: t) = none) :
    m1 (c :: subRepl mI replI t) = none := by
  have hrh : ∀ x, replI.head? = some x → isPyWs x = false := by
    intro x hx
    rcases hRhead with h | h
    · rw [h, Option.some.injEq] at hx; rw [← hx]; rfl
    · rw [h, Option.some.injEq] at hx; rw [← hx]; rfl
  by_cases hcI : c = 'I' ∨ c = 'i'
  case neg =>
    exact m1_none_head (fun h => hcI (Or.inl h)) (fun h => hcI (Or.inr h)) _
  case pos =>
  cases t with
  | nil => rw [subRepl_nil]; rfl
  | cons b t2 =>
    cases hmt : mI (b :: t2) with
    | some rest =>
      rw [subRepl_cons mI replI hlt, hmt]
      dsimp only
      cases replI with
      | nil => exact absurd rfl hrepl
      | cons e rs =>
        have he : e = 'I' ∨ e = '=' := by
          rcases hRhead with h | h
          · rw [List.head?_cons, Option.some.injEq] at h; exact Or.inl h
          · rw [List.head?_cons, Option.some.injEq] at h; exact Or.inr h
        have heN : ¬ (e = 'N' ∨ e = 'n') := by
          rcases he with rfl | rfl
          · rintro (h | h) <;> exact absurd h (by decide)
          · rintro (h | h) <;> exact absurd h (by decide)
        rw [List.cons_append]
        simp only [m1]
        rw [if_neg (fun hh => heN hh.2)]
    | none =>
      rw [subRepl_cons mI replI hlt, hmt]
      dsimp only
      by_cases hbN : b = 'N' ∨ b = 'n'
      case neg =>
        simp only [m1]
        rw [if_neg (fun hh => hbN hh.2)]
      case pos =>
        have hdw := dropWhile_ws_subRepl hlt hstart hrepl hrh t2.length t2 (Nat.le_refl _)
        simp only [m1] at hfail ⊢
        rw [if_pos ⟨hcI, hbN⟩] at hfail ⊢
        rw [hdw]
        cases hD : t2.dropWhile isPyWs with
        | nil => rw [subRepl_nil]
        | cons d r3 =>
          rw [hD] at hfail
          cases hmD : mI (d :: r3) with
          | some rr =>
            rw [subRepl_cons mI replI hlt, hmD]
            dsimp only
            cases replI with
            | nil => exact absurd rfl hrepl
            | cons e rs =>
              have he : e = 'I' ∨ e = '=' := by
                rcases hRhead with h | h
                · rw [List.head?_cons, Option.some.injEq] at h; exact Or.inl h
                · rw [List.head?_cons, Option.some.injEq] at h; exact Or.inr h
              rw [List.cons_append]
              split
              · rename_i r3x heq
                injection heq with h1 h2
                rcases he with rfl | rfl
                · exact absurd h1 (by decide)
                · exact absurd h1 (by decide)
              · rfl
          | none =>
            rw [subRepl_cons mI replI hlt, hmD]
            dsimp only
            by_cases hdP : d = '('
            case neg =>
              split
              · rename_i r3x heq
                injection heq with h1 h2
                exact absurd h1 hdP
              · rfl
            case pos =>
              subst hdP
              split at hfail
              · rename_i r3x heq
                injection heq with h1 h2
                subst h2
                cases r3 with
                | nil =>
                  rw [subRepl_nil]
                  rfl
                | cons x xs =>
                  by_cases hx : x = ')'
                  · subst hx
                    have hmx : mI (')' :: xs) = none :=
                      matcher_none_of_heads hheads (by decide) (by decide) (by decide) _
                    rw [subRepl_cons mI replI hlt, hmx]
                    dsimp only
                    rfl
                  · have htw : ((x :: xs).takeWhile (fun d => d ≠ ')')).isEmpty = false := by
                      simp [List.takeWhile_cons, hx]
                    rw [if_neg (fun hh => by rw [htw] at hh; exact Bool.false_ne_true hh)]
                      at hfail
                    rw [drop_len_takeWhile] at hfail
                    cases hdp : (x :: xs).dropWhile (fun d => d ≠ ')') with
                    | cons y ys =>
                      have hy : y = ')' := dropWhile_ne_head hdp
                      rw [hdp, hy] at hfail
                      split at hfail
                      · exact absurd hfail (by simp)
                      · rename_i hne
                        exact absurd rfl (hne ys)
                    | nil =>
                      have hnp : ')' ∉ x :: xs := by
                        intro hmem
                        have := List.dropWhile_eq_nil_iff.mp hdp _ hmem
                        simp at this
                      have hnp2 : ')' ∉ subRepl mI replI (x :: xs) := hA3 hnp
                      split
                      · rfl
                      · rw [takeWhile_all_of_not_mem hnp2, List.drop_length]
              · rename_i hne
                exact absurd rfl (hne r3)

theorem selfM1_cons_none {c : Char} {t : List Char}
    (h1 : m1 (c :: t) = none) (h2 : SelfM1 t) : SelfM1 (c :: t) := by
  refine selfM1_cons (fun r h => ?_) h2
  rw [h1] at h
  exact absurd h (by simp)

theorem m1_hstart {c : Char} {t r : List Char} (h : m1 (c :: t) = some r) :
    isPyWs c = false := by
  rcases m1_head h with rfl | rfl <;> decide

theorem m1_hheads {c : Char} {t r : List Char} (h : m1 (c :: t) = some r) :
    c = 'I' ∨ c = 'i' ∨ c = '=' := by
  rcases m1_head h with rfl | rfl
  · exact Or.inl rfl
  · exact Or.inr (Or.inl rfl)

theorem m1_hA3 {v : List Char} (h : ')' ∉ v) : ')' ∉ subRepl m1 inRepl v := by
  rw [subRepl_id m1_lt v (noM_of_not_mem (fun hm => m1_some_paren hm) h)]
  exact h

theorem eq_head_hstart {mI : List Char → Option (List Char)}
    (hhead : ∀ {c : Char} {t r : List Char}, mI (c :: t) = some r → c = '=')
    {c : Char} {t r : List Char} (h : mI (c :: t) = some r) : isPyWs c = false := by
  rw [hhead h]
  decide

theorem eq_repl_hA3 {mI : List Char → Option (List Char)}
    (hlt : ∀ l r, mI l = some r → r.length < l.length)
    (hsuf : ∀ {l r : List Char}, mI l = some r → r <:+ l)
    {v : List Char} (h : ')' ∉ v) : ')' ∉ subRepl mI eqRepl v := by
  intro hmem
  rcases mem_subRepl hlt hsuf v.length v (Nat.le_refl _) _ hmem with hr | hv
  · revert hr
    decide
  · exact h hv

theorem selfM1_subRepl_m1 :
    ∀ (n : Nat) (u : List Char), u.length ≤ n → SelfM1 (subRepl m1 inRepl u) := by
  intro n
  induction n with
  | zero =>
    intro u hu
    rw [List.length_eq_zero.mp (Nat.le_zero.mp hu)]
    exact selfM1_of_noM (noM_nil rfl)
  | succ n ih =>
    intro u hu
    cases u with
    | nil => exact selfM1_of_noM (noM_nil rfl)
    | cons c t =>
      cases hm : m1 (c :: t) with
      | some rest =>
        rw [subRepl_cons m1 inRepl m1_lt, hm]
        dsimp only
        have hlen : rest.length ≤ n := by
          have := m1_lt _ _ hm
          simp only [List.length_cons] at this hu
          omega
        have s0 : SelfM1 (subRepl m1 inRepl rest) := ih rest hlen
        rw [inRepl_append]
        have s5 := selfM1_cons_none (@m1_none_head ')' (by decide) (by decide) _) s0
        have s4 := selfM1_cons_none (@m1_none_head '?' (by decide) (by decide) _) s5
        have s3 := selfM1_cons_none (@m1_none_head '(' (by decide) (by decide) _) s4
        have s2 := selfM1_cons_none (@m1_none_head ' ' (by decide) (by decide) _) s3
        have s1 := selfM1_cons_none (@m1_none_head 'N' (by decide) (by decide) _) s2
        refine selfM1_cons (fun r h => ?_) s1
        rw [← inRepl_append] at h ⊢
        rw [m1_inRepl, Option.some.injEq] at h
        rw [h]
      | none =>
        rw [subRepl_cons m1 inRepl m1_lt, hm]
        dsimp only
        have htlen : t.length ≤ n := by
          simp only [List.length_cons] at hu
          omega
        refine selfM1_cons (fun r h => ?_) (ih t htlen)
        have hnone := m1_fail_transfer m1_lt m1_hstart m1_hheads (by decide)
          (Or.inl (show inRepl.head? = some 'I' from rfl)) m1_hA3 hm
        rw [hnone] at h
        exact absurd h (by simp)

theorem selfM1_transfer {mI : List Char → Option (List Char)}
    (hlt : ∀ l r, mI l = some r → r.length < l.length)
    (hsuf : ∀ {l r : List Char}, mI l = some r → r <:+ l)
    (hhead : ∀ {c : Char} {t r : List Char}, mI (c :: t) = some r → c = '=') :
    ∀ (n : Nat) (L : List Char), L.length ≤ n → SelfM1 L →
      SelfM1 (subRepl mI eqRepl L) := by
  intro n
  induction n with
  | zero =>
    intro L hL _
    rw [List.length_eq_zero.mp (Nat.le_zero.mp hL)]
    exact selfM1_of_noM (noM_nil rfl)
  | succ n ih =>
    intro L hL hself
    cases L with
    | nil => exact selfM1_of_noM (noM_nil rfl)
    | cons c t =>
      cases hm : mI (c :: t) with
      | some rest =>
        rw [subRepl_cons mI eqRepl hlt, hm]
        dsimp only
        rw [eqRepl_append]
        have hlen : rest.length ≤ n := by
          have := hlt _ _ hm
          simp only [List.length_cons] at this hL
          omega
        have s0 : SelfM1 (subRepl mI eqRepl rest) :=
          ih rest hlen (selfM1_suffix hself (hsuf hm))
        have s3 := selfM1_cons_none (@m1_none_head '?' (by decide) (by decide) _) s0
        have s2 := selfM1_cons_none (@m1_none_head ' ' (by decide) (by decide) _) s3
        exact selfM1_cons_none (@m1_none_head '=' (by decide) (by decide) _) s2
      | none =>
        rw [subRepl_cons mI eqRepl hlt, hm]
        dsimp only
        have htlen : t.length ≤ n := by
          simp only [List.length_cons] at hL
          omega
        refine selfM1_cons (fun r h => ?_)
          (ih t htlen (selfM1_suffix hself (List.suffix_cons c t)))
        cases horig : m1 (c :: t) with
        | none =>
          have hnone := m1_fail_transfer hlt (eq_head_hstart hhead)
            (fun hh => Or.inr (Or.inr (hhead hh))) (by decide)
            (Or.inr (show eqRepl.head? = some '=' from rfl)) (eq_repl_hA3 hlt hsuf) horig
          rw [hnone] at h
          exact absurd h (by simp)
        | some X0 =>
          have hshape : c :: t = inRepl ++ X0 := hself _ _ (List.suffix_refl _) horig
          rw [inRepl_append] at hshape
          injection hshape with hc ht
          subst hc
          subst ht
          have e1 : mI ('N' :: ' ' :: '(' :: '?' :: ')' :: X0) = none :=
            matcher_none_of_head_eq hhead (by decide) _
          have e2 : mI (' ' :: '(' :: '?' :: ')' :: X0) = none :=
            matcher_none_of_head_eq hhead (by decide) _
          have e3 : mI ('(' :: '?' :: ')' :: X0) = none :=
            matcher_none_of_head_eq hhead (by decide) _
          have e4 : mI ('?' :: ')' :: X0) = none :=
            matcher_none_of_head_eq hhead (by decide) _
          have e5 : mI (')' :: X0) = none :=
            matcher_none_of_head_eq hhead (by decide) _
          have hS : subRepl mI eqRepl ('N' :: ' ' :: '(' :: '?' :: ')' :: X0)
              = 'N' :: ' ' :: '(' :: '?' :: ')' :: subRepl mI eqRepl X0 := by
            rw [subRepl_cons mI eqRepl hlt, e1]
            dsimp only
            rw [subRepl_cons mI eqRepl hlt, e2]
            dsimp only
            rw [subRepl_cons mI eqRepl hlt, e3]
            dsimp only
            rw [subRepl_cons mI eqRepl hlt, e4]
            dsimp only
            rw [subRepl_cons mI eqRepl hlt, e5]

          rw [hS] at h ⊢
          rw [← inRepl_append] at h ⊢
          rw [m1_inRepl, Option.some.injEq] at h
          rw [h]

theorem eq_repl_hrh : ∀ x, eqRepl.head? = some x → isPyWs x = false := by
  intro x hx
  rw [show eqRepl.head? = some '=' from rfl, Option.some.injEq] at hx
  rw [← hx]
  decide

theorem m2_fail_transfer {mI : List Char → Option (List Char)}
    (hlt : ∀ l r, mI l = some r → r.length < l.length)
    (hhead : ∀ {c : Char} {t r : List Char}, mI (c :: t) = some r → c = '=')
    {c : Char} {t : List Char} (hfail : m2 (c :: t) = none) :
    m2 (c :: subRepl mI eqRepl t) = none := by
  by_cases hc : c = '='
  case neg => exact m2_none_head hc _
  case pos =>
    subst hc
    have hdw := dropWhile_ws_subRepl hlt (eq_head_hstart hhead) (by decide)
      eq_repl_hrh t.length t (Nat.le_refl _)
    simp only [m2] at hfail ⊢
    rw [if_pos trivial] at hfail ⊢
    rw [hdw]
    cases hD : t.dropWhile isPyWs with
    | nil => rw [subRepl_nil]
    | cons d D2 =>
      rw [hD] at hfail
      cases hmD : mI (d :: D2) with
      | some rr =>
        rw [subRepl_cons mI eqRepl hlt, hmD]
        dsimp only
        rw [eqRepl_append]
        rfl
      | none =>
        rw [subRepl_cons mI eqRepl hlt, hmD]
        dsimp only
        by_cases hd : d = '%'
        case neg =>
          split
          · rename_i r3 heq
            injection heq with h1 h2
            exact absurd h1 hd
          · rfl
        case pos =>
          subst hd
          cases D2 with
          | nil =>
            rw [subRepl_nil]
            rfl
          | cons x D3 =>
            cases hmx : mI (x :: D3) with
            | some rr2 =>
              rw [subRepl_cons mI eqRepl hlt, hmx]
              dsimp only
              rw [eqRepl_append]
              rfl
            | none =>
              rw [subRepl_cons mI eqRepl hlt, hmx]
              dsimp only
              by_cases hx : x = 's'
              · subst hx
                split at hfail
                · exact absurd hfail (by simp)
                · rename_i hne
                  exact absurd rfl (hne D3)
              · split
                · rename_i r3 heq
                  injection heq with h1 h2
                  injection h2 with h3 h4
                  exact absurd h3 hx
                · rfl

theorem m3_fail_transfer {mI : List Char → Option (List Char)}
    (hlt : ∀ l r, mI l = some r → r.length < l.length)
    (hhead : ∀ {c : Char} {t r : List Char}, mI (c :: t) = some r → c = '=')
    {c : Char} {t : List Char} (hfail : m3 (c :: t) = none) :
    m3 (c :: subRepl mI eqRepl t) = none := by
  by_cases hc : c = '='
  case neg => exact m3_none_head hc _
  case pos =>
    subst hc
    have hdw := dropWhile_ws_subRepl hlt (eq_head_hstart hhead) (by decide)
      eq_repl_hrh t.length t (Nat.le_refl _)
    simp only [m3] at hfail ⊢
    rw [if_pos trivial] at hfail ⊢
    rw [hdw]
    have hempty : ((t.dropWhile isPyWs).takeWhile Char.isDigit).isEmpty = true := by
      by_cases hE : ((t.dropWhile isPyWs).takeWhile Char.isDigit).isEmpty = true
      · exact hE
      · rw [if_neg hE] at hfail
        exact absurd hfail (by simp)
    have hgoal :
        ((subRepl mI eqRepl (t.dropWhile isPyWs)).takeWhile Char.isDigit).isEmpty = true := by
      cases hD : t.dropWhile isPyWs with
      | nil => rw [subRepl_nil]; rfl
      | cons d D2 =>
        rw [hD] at hempty
        have hdnd : d.isDigit = false := by
          cases hdig : d.isDigit with
          | false => rfl
          | true =>
            rw [List.takeWhile_cons_of_pos hdig] at hempty
            exact absurd hempty (by simp)
        cases hmD : mI (d :: D2) with
        | some rr =>
          rw [subRepl_cons mI eqRepl hlt, hmD]
          dsimp only
          rw [eqRepl_append]
          rfl
        | none =>
          rw [subRepl_cons mI eqRepl hlt, hmD]
          dsimp only
          rw [List.takeWhile_cons_of_neg
            (fun hh => by rw [hdnd] at hh; exact Bool.false_ne_true hh)]
          rfl
    rw [if_pos hgoal]

theorem m4_fail_transfer {mI : List Char → Option (List Char)}
    (hlt : ∀ l r, mI l = some r → r.length < l.length)
    (hsuf : ∀ {l r : List Char}, mI l = some r → r <:+ l)
    (hhead : ∀ {c : Char} {t r : List Char}, mI (c :: t) = some r → c = '=')
    {c : Char} {t : List Char} (hfail : m4 (c :: t) = none) :
    m4 (c :: subRepl mI eqRepl t) = none := by
  by_cases hc : c = '='
  case neg => exact m4_none_head hc _
  case pos =>
    subst hc
    have hdw := dropWhile_ws_subRepl hlt (eq_head_hstart hhead) (by decide)
      eq_repl_hrh t.length t (Nat.le_refl _)
    simp only [m4] at hfail ⊢
    rw [if_pos trivial] at hfail ⊢
    rw [hdw]
    cases hD : t.dropWhile isPyWs with
    | nil => rw [subRepl_nil]
    | cons d r3 =>
      rw [hD] at hfail
      cases hmD : mI (d :: r3) with
      | some rr =>
        rw [subRepl_cons mI eqRepl hlt, hmD]
        dsimp only
        rw [eqRepl_append]
        rfl
      | none =>
        rw [subRepl_cons mI eqRepl hlt, hmD]
        dsimp only
        by_cases hdq : d = '\''
        case neg =>
          split
          · rename_i r3x heq
            injection heq with h1 h2
            exact absurd h1 hdq
          · rfl
        case pos =>
          subst hdq
          split at hfail
          · rename_i r3x heq
            injection heq with h1 h2
            subst h2
            cases r3 with
            | nil =>
              rw [subRepl_nil]
              rfl
            | cons x xs =>
              by_cases hx : x = '\''
              · subst hx
                have hmx : mI ('\'' :: xs) = none :=
                  matcher_none_of_head_eq hhead (by decide) _
                rw [subRepl_cons mI eqRepl hlt, hmx]
                dsimp only
                rfl
              · have htw : ((x :: xs).takeWhile (fun d => d ≠ '\'')).isEmpty = false := by
                  simp [List.takeWhile_cons, hx]
                rw [if_neg (fun hh => by rw [htw] at hh; exact Bool.false_ne_true hh)]
                  at hfail
                rw [drop_len_takeWhile] at hfail
                cases hdp : (x :: xs).dropWhile (fun d => d ≠ '\'') with
                | cons y ys =>
                  have hy : y = '\'' := dropWhile_ne_head hdp
                  rw [hdp, hy] at hfail
                  split at hfail
                  · exact absurd hfail (by simp)
                  · rename_i hne
                    exact absurd rfl (hne ys)
                | nil =>
                  have hnq : '\'' ∉ x :: xs := by
                    intro hmem
                    have := List.dropWhile_eq_nil_iff.mp hdp _ hmem
                    simp at this
                  have hnq2 : '\'' ∉ subRepl mI eqRepl (x :: xs) := by
                    intro hmem
                    rcases mem_subRepl hlt hsuf (x :: xs).length _ (Nat.le_refl _) _ hmem
                      with hr | hv
                    · revert hr
                      decide
                    · exact hnq hv
                  split
                  · rfl
                  · rw [takeWhile_all_of_not_mem hnq2, List.drop_length]
          · rename_i hne
            exact absurd rfl (hne r3)

theorem noM2_sub {mI : List Char → Option (List Char)}
    (hlt : ∀ l r, mI l = some r → r.length < l.length)
    (hsuf : ∀ {l r : List Char}, mI l = some r → r <:+ l)
    (hhead : ∀ {c : Char} {t r : List Char}, mI (c :: t) = some r → c = '=') :
    ∀ (n : Nat) (L : List Char), L.length ≤ n →
      (∀ u, u <:+ L → mI u = none → m2 u = none) → NoM m2 (subRepl mI eqRepl L) := by
  intro n
  induction n with
  | zero =>
    intro L hL _
    rw [List.length_eq_zero.mp (Nat.le_zero.mp hL)]
    exact noM_nil rfl
  | succ n ih =>
    intro L hL H
    cases L with
    | nil => exact noM_nil rfl
    | cons c t =>
      cases hm : mI (c :: t) with
      | some rest =>
        rw [subRepl_cons mI eqRepl hlt, hm]
        dsimp only
        rw [eqRepl_append]
        have hlen : rest.length ≤ n := by
          have := hlt _ _ hm
          simp only [List.length_cons] at this hL
          omega
        have k0 : NoM m2 (subRepl mI eqRepl rest) :=
          ih rest hlen (fun u hu => H u (hu.trans (hsuf hm)))
        have k1 : NoM m2 ('?' :: subRepl mI eqRepl rest) :=
          noM_cons (m2_none_head (by decide) _) k0
        have k2 : NoM m2 (' ' :: '?' :: subRepl mI eqRepl rest) :=
          noM_cons (m2_none_head (by decide) _) k1
        exact noM_cons (m2_block _) k2
      | none =>
        rw [subRepl_cons mI eqRepl hlt, hm]
        dsimp only
        have htlen : t.length ≤ n := by
          simp only [List.length_cons] at hL
          omega
        exact noM_cons
          (m2_fail_transfer hlt hhead (H _ (List.suffix_refl _) hm))
          (ih t htlen (fun u hu => H u (hu.trans (List.suffix_cons c t))))

theorem noM3_sub {mI : List Char → Option (List Char)}
    (hlt : ∀ l r, mI l = some r → r.length < l.length)
    (hsuf : ∀ {l r : List Char}, mI l = some r → r <:+ l)
    (hhead : ∀ {c : Char} {t r : List Char}, mI (c :: t) = some r → c = '=') :
    ∀ (n : Nat) (L : List Char), L.length ≤ n →
      (∀ u, u <:+ L → mI u = none → m3 u = none) → NoM m3 (subRepl mI eqRepl L) := by
  intro n
  induction n with
  | zero =>
    intro L hL _
    rw [List.length_eq_zero.mp (Nat.le_zero.mp hL)]
    exact noM_nil rfl
  | succ n ih =>
    intro L hL H
    cases L with
    | nil => exact noM_nil rfl
    | cons c t =>
      cases hm : mI (c :: t) with
      | some rest =>
        rw [subRepl_cons mI eqRepl hlt, hm]
        dsimp only
        rw [eqRepl_append]
        have hlen : rest.length ≤ n := by
          have := hlt _ _ hm
          simp only [List.length_cons] at this hL
          omega
        have k0 : NoM m3 (subRepl mI eqRepl rest) :=
          ih rest hlen (fun u hu => H u (hu.trans (hsuf hm)))
        have k1 : NoM m3 ('?' :: subRepl mI eqRepl rest) :=
          noM_cons (m3_none_head (by decide) _) k0
        have k2 : NoM m3 (' ' :: '?' :: subRepl mI eqRepl rest) :=
          noM_cons (m3_none_head (by decide) _) k1
        exact noM_cons (m3_block _) k2
      | none =>
        rw [subRepl_cons mI eqRepl hlt, hm]
        dsimp only
        have htlen : t.length ≤ n := by
          simp only [List.length_cons] at hL
          omega
        exact noM_cons
          (m3_fail_transfer hlt hhead (H _ (List.suffix_refl _) hm))
          (ih t htlen (fun u hu => H u (hu.trans (List.suffix_cons c t))))

theorem noM4_sub {mI : List Char → Option (List Char)}
    (hlt : ∀ l r, mI l = some r → r.length < l.length)
    (hsuf : ∀ {l r : List Char}, mI l = some r → r <:+ l)
    (hhead : ∀ {c : Char} {t r : List Char}, mI (c :: t) = some r → c = '=') :
    ∀ (n : Nat) (L : List Char), L.length ≤ n →
      (∀ u, u <:+ L → mI u = none → m4 u = none) → NoM m4 (subRepl mI eqRepl L) := by
  intro n
  induction n with
  | zero =>
    intro L hL _
    rw [List.length_eq_zero.mp (Nat.le_zero.mp hL)]
    exact noM_nil rfl
  | succ n ih =>
    intro L hL H
    cases L with
    | nil => exact noM_nil rfl
    | cons c t =>
      cases hm : mI (c :: t) with
      | some rest =>
        rw [subRepl_cons mI eqRepl hlt, hm]
        dsimp only
        rw [eqRepl_append]
        have hlen : rest.length ≤ n := by
          have := hlt _ _ hm
          simp only [List.length_cons] at this hL
          omega
        have k0 : NoM m4 (subRepl mI eqRepl rest) :=
          ih rest hlen (fun u hu => H u (hu.trans (hsuf hm)))
        have k1 : NoM m4 ('?' :: subRepl mI eqRepl rest) :=
          noM_cons (m4_none_head (by decide) _) k0
        have k2 : NoM m4 (' ' :: '?' :: subRepl mI eqRepl rest) :=
          noM_cons (m4_none_head (by decide) _) k1
        exact noM_cons (m4_block _) k2
      | none =>
        rw [subRepl_cons mI eqRepl hlt, hm]
        dsimp only
        have htlen : t.length ≤ n := by
          simp only [List.length_cons] at hL
          omega
        exact noM_cons
          (m4_fail_transfer hlt hsuf hhead (H _ (List.suffix_refl _) hm))
          (ih t htlen (fun u hu => H u (hu.trans (List.suffix_cons c t))))

theorem noDbl_subRepl {m : List Char → Option (List Char)} {repl : List Char}
    (hlt : ∀ l r, m l = some r → r.length < l.length)
    (hsuf : ∀ {l r : List Char}, m l = some r → r <:+ l)
    (hrepl : repl ≠ [])
    (hndR : noDbl repl)
    (hrH : repl.head? ≠ some ' ')
    (hrL : repl.getLast? ≠ some ' ') :
    ∀ (n : Nat) (l : List Char), l.length ≤ n → noDbl l → noDbl (subRepl m repl l) := by
  intro n
  induction n with
  | zero =>
    intro l hl _
    rw [List.length_eq_zero.mp (Nat.le_zero.mp hl)]
    exact List.chain'_nil
  | succ n ih =>
    intro l hl hnd
    cases l with
    | nil => exact List.chain'_nil
    | cons c t =>
      cases hm : m (c :: t) with
      | some rest =>
        rw [subRepl_cons m repl hlt, hm]
        dsimp only
        have hlen : rest.length ≤ n := by
          have := hlt _ _ hm
          simp only [List.length_cons] at this hl
          omega
        have hndrest : noDbl rest := List.Chain'.suffix hnd (hsuf hm)
        rw [noDbl, List.chain'_append]
        refine ⟨hndR, ih rest hlen hndrest, ?_⟩
        intro x hx y hy
        rintro ⟨hx2, -⟩
        exact hrL (hx2 ▸ Option.mem_def.mp hx)
      | none =>
        rw [subRepl_cons m repl hlt, hm]
        dsimp only
        have htlen : t.length ≤ n := by
          simp only [List.length_cons] at hl
          omega
        rw [noDbl, List.chain'_cons']
        constructor
        · intro y hy
          rintro ⟨hc, hy2⟩
          rcases head?_subRepl hlt hrepl t with hh | hh
          · rw [hh] at hy
            exact (List.chain'_cons'.mp hnd).1 y hy ⟨hc, hy2⟩
          · rw [hh] at hy
            exact hrH (hy2 ▸ Option.mem_def.mp hy)
        · exact ih t htlen (List.Chain'.tail hnd)

theorem cws_subRepl {m : List Char → Option (List Char)} {repl : List Char}
    (hlt : ∀ l r, m l = some r → r.length < l.length)
    (hsuf : ∀ {l r : List Char}, m l = some r → r <:+ l)
    (hrepl : repl ≠ [])
    (hwsR : wsOk repl)
    (hndR : noDbl repl)
    (hrH : repl.head? ≠ some ' ')
    (hrL : repl.getLast? ≠ some ' ')
    {l : List Char} (hc : Cws l) : Cws (subRepl m repl l) := by
  obtain ⟨hws, hnd, hhd, hlast⟩ := hc
  refine ⟨?_, ?_, ?_, ?_⟩
  · intro x hx hxw
    rcases mem_subRepl hlt hsuf l.length l (Nat.le_refl _) x hx with h | h
    · exact hwsR x h hxw
    · exact hws x h hxw
  · exact noDbl_subRepl hlt hsuf hrepl hndR hrH hrL l.length l (Nat.le_refl _) hnd
  · rcases head?_subRepl hlt hrepl l with hh | hh
    · rw [hh]; exact hhd
    · rw [hh]; exact hrH
  · rcases getLast?_subRepl hlt hsuf hrepl l.length l (Nat.le_refl _) with hh | hh
    · rw [hh]; exact hlast
    · rw [hh]; exact hrL

theorem wsOk_inRepl : wsOk inRepl := by
  show ∀ c ∈ inRepl, isPyWs c = true → c = ' '
  decide

theorem wsOk_eqRepl : wsOk eqRepl := by
  show ∀ c ∈ eqRepl, isPyWs c = true → c = ' '
  decide

theorem noDbl_inRepl : noDbl inRepl := by
  show List.Chain' (fun a b => ¬(a = ' ' ∧ b = ' ')) ['I', 'N', ' ', '(', '?', ')']
  rw [List.chain'_cons, List.chain'_cons, List.chain'_cons, List.chain'_cons,
    List.chain'_cons]
  exact ⟨by decide, by decide, by decide, by decide, by decide, List.chain'_singleton _⟩

theorem noDbl_eqRepl : noDbl eqRepl := by
  show List.Chain' (fun a b => ¬(a = ' ' ∧ b = ' ')) ['=', ' ', '?']
  rw [List.chain'_cons, List.chain'_cons]
  exact ⟨by decide, by decide, List.chain'_singleton _⟩

theorem cws_normChars (l : List Char) : Cws (normChars l) := by
  rw [normChars]
  have h1 := @cws_subRepl m1 inRepl m1_lt m1_suffix (by decide) wsOk_inRepl noDbl_inRepl
    (by decide) (by decide) _ (cws_collapse l)
  have h2 := @cws_subRepl m2 eqRepl m2_lt m2_suffix (by decide) wsOk_eqRepl noDbl_eqRepl
    (by decide) (by decide) _ h1
  have h3 := @cws_subRepl m3 eqRepl m3_lt m3_suffix (by decide) wsOk_eqRepl noDbl_eqRepl
    (by decide) (by decide) _ h2
  exact @cws_subRepl m4 eqRepl m4_lt m4_suffix (by decide) wsOk_eqRepl noDbl_eqRepl
    (by decide) (by decide) _ h3

theorem selfM1_normChars (l : List Char) : SelfM1 (normChars l) := by
  rw [normChars]
  have g1 : SelfM1 (subRepl m1 inRepl (collapseWs l)) :=
    selfM1_subRepl_m1 _ _ (Nat.le_refl _)
  have g2 := selfM1_transfer m2_lt m2_suffix m2_head _ _ (Nat.le_refl _) g1
  have g3 := selfM1_transfer m3_lt m3_suffix m3_head _ _ (Nat.le_refl _) g2
  exact selfM1_transfer m4_lt m4_suffix m4_head _ _ (Nat.le_refl _) g3

theorem noM2_normChars (l : List Char) : NoM m2 (normChars l) := by
  rw [normChars]
  have k2 : NoM m2 (subRepl m2 eqRepl (subRepl m1 inRepl (collapseWs l))) :=
    noM2_sub m2_lt m2_suffix m2_head _ _ (Nat.le_refl _) (fun u hu hnone => hnone)
  have k3 : NoM m2 (subRepl m3 eqRepl
      (subRepl m2 eqRepl (subRepl m1 inRepl (collapseWs l)))) :=
    noM2_sub m3_lt m3_suffix m3_head _ _ (Nat.le_refl _) (fun u hu _ => k2 u hu)
  exact noM2_sub m4_lt m4_suffix m4_head _ _ (Nat.le_refl _) (fun u hu _ => k3 u hu)

theorem noM3_normChars (l : List Char) : NoM m3 (normChars l) := by
  rw [normChars]
  have k3 : NoM m3 (subRepl m3 eqRepl
      (subRepl m2 eqRepl (subRepl m1 inRepl (collapseWs l)))) :=
    noM3_sub m3_lt m3_suffix m3_head _ _ (Nat.le_refl _) (fun u hu hnone => hnone)
  exact noM3_sub m4_lt m4_suffix m4_head _ _ (Nat.le_refl _) (fun u hu _ => k3 u hu)

theorem noM4_normChars (l : List Char) : NoM m4 (normChars l) := by
  rw [normChars]
  exact noM4_sub m4_lt m4_suffix m4_head _ _ (Nat.le_refl _) (fun u hu hnone => hnone)

theorem normChars_idem (l : List Char) : normChars (normChars l) = normChars l := by
  have hN : Cws (normChars l) := cws_normChars l
  have h1 : subRepl m1 inRepl (normChars l) = normChars l :=
    subRepl_selfM1_id (normChars l).length _ (Nat.le_refl _) (selfM1_normChars l)
  have h2 : subRepl m2 eqRepl (normChars l) = normChars l :=
    subRepl_id m2_lt _ (noM2_normChars l)
  have h3 : subRepl m3 eqRepl (normChars l) = normChars l :=
    subRepl_id m3_lt _ (noM3_normChars l)
  have h4 : subRepl m4 eqRepl (normChars l) = normChars l :=
    subRepl_id m4_lt _ (noM4_normChars l)
  conv_lhs => rw [normChars]
  rw [collapseWs_id hN, h1, h2, h3, h4]

/-- C10: the SQL-shape normalizer underlying `CapturedQuery.get_base_query`
is idempotent — for every string `s`, `normalize(normalize(s)) = normalize(s)`,
so normalized shapes are fixed points of normalization. -/
theorem claim_C10 (s : String) : normalizeSql (normalizeSql s) = normalizeSql s := by
  show String.mk (normChars (String.mk (normChars s.data)).data)
    = String.mk (normChars s.data)
  rw [show (String.mk (normChars s.data)).data = normChars s.data from rfl,
    normChars_idem]

end DQC
